import Mathlib

/-!
Verification development for the coredns-acme plugin.

Strings are modelled as `List Char` (`Str`).  Go maps are modelled as
association lists; map iteration order is irrelevant for every function
modelled here (argued where used).  Fallible Go functions returning
`(T, error)` become `Except DBErr T`; mutating storage operations become
state-passing functions `State → Except DBErr Unit × State`.
-/

namespace Acme

abbrev Str := List Char

/-- Shorthand to write `Str` literals. -/
def str (s : String) : Str := s.data

instance {ε α : Type} [DecidableEq ε] [DecidableEq α] : DecidableEq (Except ε α) := fun x y =>
  match x, y with
  | .error e, .error e' =>
    if h : e = e' then isTrue (by rw [h]) else isFalse (fun hh => by cases hh; exact h rfl)
  | .ok a, .ok a' =>
    if h : a = a' then isTrue (by rw [h]) else isFalse (fun hh => by cases hh; exact h rfl)
  | .error _, .ok _ => isFalse (fun hh => by cases hh)
  | .ok _, .error _ => isFalse (fun hh => by cases hh)

/-- The error values of the storage layer (db.go / memDB.go):
`ErrRecordNotFound`, `ErrReadOnlyDatabase`, the ad-hoc
`errors.New "value not found"` of `MemDB.CleanupRecord`, and a stand-in
for any other backend I/O fault. -/
inductive DBErr where
  | notFound
  | readOnly
  | valueNotFound
  | ioFault
deriving DecidableEq, Repr

/-- Account (account.go): username, password digest, zone, allow-list. -/
structure Account where
  username : Str
  password : Str
  zone : Str
  allowedIPs : List Str
deriving DecidableEq, Repr

/-- Go `strings.Split(s, sep)` for a single-character separator. -/
def goSplit (c : Char) : Str → List Str
  | [] => [[]]
  | x :: xs =>
    if x = c then [] :: goSplit c xs
    else
      match goSplit c xs with
      | [] => [[x]]
      | h :: t => (x :: h) :: t

/-- Go `strings.HasSuffix s suf`. -/
def goHasSuffix (s suf : Str) : Bool := List.isSuffixOf suf s

/-- Go `unicode.IsSpace` restricted to the characters that can occur in
the one-byte range (the only part the CIDR-list code relies on). -/
def goIsSpace (c : Char) : Bool :=
  c = ' ' || c = '\t' || c = '\n' || c = Char.ofNat 11 || c = Char.ofNat 12 ||
  c = '\r' || c = Char.ofNat 133 || c = Char.ofNat 160

/-- Go `strings.TrimSpace`. -/
def goTrimSpace (s : Str) : Str :=
  ((s.dropWhile goIsSpace).reverse.dropWhile goIsSpace).reverse

/-- Go `strings.Join l sep`. -/
def goJoin (sep : Str) : List Str → Str
  | [] => []
  | [x] => x
  | x :: xs => x ++ sep ++ goJoin sep xs

/-- `NewCIDRList` (cidr_list.go): split a comma-separated string, trim
whitespace, drop empty entries; the empty string gives nil. -/
def newCIDRList (cidrs : Str) : List Str :=
  if cidrs = [] then []
  else ((goSplit ',' cidrs).map goTrimSpace).filter (fun t => decide (t ≠ []))

/-- `CIDRList.String` (cidr_list.go): comma-join. -/
def cidrString (l : List Str) : Str := goJoin [','] l

/-! ## MemDB (memDB.go) -/

/-- In-memory backend: `records map[string][]string` and
`accounts map[string]Account` (keyed by `username + ":" + zone`),
modelled as association lists with distinct keys. -/
structure MemDB where
  records : List (Str × List Str)
  accounts : List (Str × Account)
deriving DecidableEq, Repr

/-- Overwriting insert into an association list (Go map assignment). -/
def mapSet (k : Str) (v : α) : List (Str × α) → List (Str × α)
  | [] => [(k, v)]
  | (k', v') :: rest => if k' = k then (k, v) :: rest else (k', v') :: mapSet k v rest

def emptyMemDB : MemDB := ⟨[], []⟩

/-- `MemDB.GetRecords`: not-found when the key is absent or the slice is
empty. -/
def memGetRecords (db : MemDB) (fqdn : Str) : Except DBErr (List Str) :=
  match List.lookup fqdn db.records with
  | none => .error .notFound
  | some records => if records.length = 0 then .error .notFound else .ok records

/-- Zero value `var bestMatch Account` of the Go scan. -/
def defaultAccount : Account := ⟨[], [], [], []⟩

/-- One iteration of the `MemDB.GetAccount` scan: split the key on `:`,
skip keys that do not have exactly two parts or a different username,
and keep the strictly longest `"." + zone` suffix match. -/
def memScanStep (username subdomain : Str) (best : Account × Nat) (kv : Str × Account) :
    Account × Nat :=
  match goSplit ':' kv.1 with
  | [p0, p1] =>
    if p0 = username then
      let zone := '.' :: p1
      if goHasSuffix subdomain zone && best.2 < zone.length then (kv.2, zone.length) else best
    else best
  | _ => best

/-- `MemDB.GetAccount`: exact `username:subdomain` lookup first, then a
scan for the longest matching zone.  The scan result does not depend on
Go's map iteration order because two distinct zones of equal length can
never both be suffixes of the same queried name (proved below), so the
association-list order is a faithful model. -/
def memGetAccount (db : MemDB) (username subdomain : Str) : Except DBErr Account :=
  match List.lookup (username ++ ':' :: subdomain) db.accounts with
  | some a => .ok a
  | none =>
    let best := db.accounts.foldl (memScanStep username subdomain) (defaultAccount, 0)
    if best.2 > 0 then .ok best.1 else .error .notFound

/-- `MemDB.RegisterAccount`: store the digest in the password field under
key `username + ":" + zone`. -/
def memRegisterAccount (db : MemDB) (a : Account) (passwordHash : Str) :
    Except DBErr Unit × MemDB :=
  let a' := { a with password := passwordHash }
  (.ok (), { db with accounts := mapSet (a.username ++ ':' :: a.zone) a' db.accounts })

/-- `MemDB.PresentRecord`: no-op if the value is already present, else
append (Go `m.records[fqdn]` yields the nil slice when the key is
absent). -/
def memPresentRecord (db : MemDB) (fqdn value : Str) : Except DBErr Unit × MemDB :=
  let records := (List.lookup fqdn db.records).getD []
  if value ∈ records then (.ok (), db)
  else (.ok (), { db with records := mapSet fqdn (records ++ [value]) db.records })

/-- `MemDB.CleanupRecord`: nothing to delete when the key is absent;
remove the first occurrence when present; otherwise the distinct
"value not found" error.  Note the emptied slice stays in the map. -/
def memCleanupRecord (db : MemDB) (fqdn value : Str) : Except DBErr Unit × MemDB :=
  match List.lookup fqdn db.records with
  | none => (.ok (), db)
  | some records =>
    if value ∈ records then
      (.ok (), { db with records := mapSet fqdn (records.erase value) db.records })
    else (.error .valueNotFound, db)

/-! ## SQLiteDB (sqlitedb.go, the modernc.org/sqlite version with the
read-only mode) -/

/-- A row of the `records(fqdn, value, updated, created)` table.  The
`updated` timestamp is represented by the row's position: the list is
kept in ascending `updated` order (INSERT OR REPLACE re-inserts at the
end with a fresh timestamp), so `ORDER BY updated DESC` is the reverse
of the list order. -/
structure RecordRow where
  fqdn : Str
  value : Str
deriving DecidableEq, Repr

/-- A row of the `accounts(username, password, zone, allowfrom)` table;
`allowfrom` holds the comma-joined allow-list string exactly as
`RegisterAccount` stores it. -/
structure AccountRow where
  username : Str
  password : Str
  zone : Str
  allowfrom : Str
deriving DecidableEq, Repr

structure SQLiteDB where
  records : List RecordRow
  accounts : List AccountRow
  readOnly : Bool
deriving DecidableEq, Repr

/-- SQLite folds only ASCII letters for `LIKE`. -/
def sqlLowerChar (c : Char) : Char :=
  if 'A' ≤ c ∧ c ≤ 'Z' then Char.ofNat (c.toNat + 32) else c

/-- `%` consumes any prefix: try the rest of the pattern on every
suffix of the string. -/
def starLoop (f : Str → Bool) : Str → Bool
  | [] => f []
  | c :: s' => f (c :: s') || starLoop f s'

/-- Default (no ESCAPE clause) SQLite `LIKE`: `%` matches any sequence,
`_` any single character, other characters match ASCII
case-insensitively.  First argument is the pattern. -/
def sqlLike : Str → Str → Bool
  | [], s => s.isEmpty
  | p :: ps, s =>
    if p = '%' then starLoop (sqlLike ps) s
    else
      match s with
      | [] => false
      | c :: s' =>
        if p = '_' then sqlLike ps s'
        else (sqlLowerChar p = sqlLowerChar c) && sqlLike ps s'

/-- Row filter of `SQLiteDB.GetAccount`:
`username = ? AND (zone = ? OR ? LIKE '%.' || zone)`. -/
def sqlAccountMatch (username subdomain : Str) (r : AccountRow) : Bool :=
  r.username = username && (r.zone = subdomain || sqlLike ('%' :: '.' :: r.zone) subdomain)

/-- The `Scan` + allow-list conversion of `SQLiteDB.GetAccount`: the
`allowfrom` column is parsed with `NewCIDRList` when non-empty. -/
def rowToAccount (r : AccountRow) : Account :=
  { username := r.username, password := r.password, zone := r.zone,
    allowedIPs := if r.allowfrom = [] then [] else newCIDRList r.allowfrom }

/-- `SQLiteDB.GetAccount` as a relation on outcomes.  The query orders
matching rows by `LENGTH(zone) DESC` with `LIMIT 1` and no further tie
break, so any row of maximal zone length may be returned; no row at all
is `ErrRecordNotFound`. -/
def sqliteGetAccountRel (db : SQLiteDB) (username subdomain : Str) :
    Except DBErr Account → Prop
  | .error .notFound => db.accounts.filter (sqlAccountMatch username subdomain) = []
  | .ok a =>
    ∃ r ∈ db.accounts.filter (sqlAccountMatch username subdomain),
      a = rowToAccount r ∧
        ∀ r' ∈ db.accounts.filter (sqlAccountMatch username subdomain),
          r'.zone.length ≤ r.zone.length
  | _ => False

/-- `SQLiteDB.GetRecords`: `SELECT value FROM records WHERE fqdn = ?
ORDER BY updated DESC`; empty result is `ErrRecordNotFound`. -/
def sqliteGetRecords (db : SQLiteDB) (fqdn : Str) : Except DBErr (List Str) :=
  let values := ((db.records.filter (fun r => r.fqdn = fqdn)).map (fun r => r.value)).reverse
  if values.length = 0 then .error .notFound else .ok values

/-- `SQLiteDB.PresentRecord`: the read-only guard, then
`INSERT OR REPLACE` on primary key `(fqdn, value)` with a fresh
`updated` timestamp. -/
def sqlitePresentRecord (db : SQLiteDB) (fqdn value : Str) : Except DBErr Unit × SQLiteDB :=
  if db.readOnly then (.error .readOnly, db)
  else
    (.ok (),
      { db with
        records :=
          (db.records.filter (fun r => decide (r ≠ ⟨fqdn, value⟩))) ++ [⟨fqdn, value⟩] })

/-- `SQLiteDB.CleanupRecord`: the read-only guard, then
`DELETE FROM records WHERE fqdn = ? AND value = ?` (no error when no row
matches). -/
def sqliteCleanupRecord (db : SQLiteDB) (fqdn value : Str) : Except DBErr Unit × SQLiteDB :=
  if db.readOnly then (.error .readOnly, db)
  else (.ok (), { db with records := db.records.filter (fun r => decide (r ≠ ⟨fqdn, value⟩)) })

/-- `SQLiteDB.RegisterAccount`: the read-only guard, then a plain INSERT
that fails on a duplicate `(username, zone)` primary key. -/
def sqliteRegisterAccount (db : SQLiteDB) (a : Account) (passwordHash : Str) :
    Except DBErr Unit × SQLiteDB :=
  if db.readOnly then (.error .readOnly, db)
  else if db.accounts.any (fun r => r.username = a.username && r.zone = a.zone) then
    (.error .ioFault, db)
  else
    (.ok (),
      { db with
        accounts := db.accounts ++ [⟨a.username, passwordHash, a.zone, cidrString a.allowedIPs⟩] })

/-! ## BadgerDB (badgerdb.go)

One key space with prefixes `record:` and `account:`.  Because the two
literal prefixes differ in their first character, record scans never see
account keys and vice versa, so the store is modelled as two lists.  The
JSON round trip of `Account` is the identity on this model.  Key order
inside Badger is sorted; the model keeps insertion order, which is
observationally equal here because no modelled claim depends on the
order of `GetRecords` output and the `GetAccount` scan is
order-independent (two distinct candidate zones of equal length cannot
both match, proved below). -/

def recordKeySpace : Str := str "record:"
def accountKeySpace : Str := str "account:"

/-- `makeRecordKey`: `"record:" + fqdn + ":" + value`. -/
def makeRecordKey (fqdn value : Str) : Str := recordKeySpace ++ fqdn ++ ':' :: value

/-- `makeAccountKey`: `"account:" + username + ":" + zone`. -/
def makeAccountKey (username zone : Str) : Str := accountKeySpace ++ username ++ ':' :: zone

structure BadgerDB where
  recordKeys : List Str
  accountPairs : List (Str × Account)
deriving DecidableEq, Repr

/-- One step of the `BadgerDB.GetAccount` prefix scan over keys. -/
def badgerScanStep (zone pre : Str) (best : Option Str × Nat) (k : Str) : Option Str × Nat :=
  if List.isPrefixOf pre k then
    let accountZone := '.' :: k.drop pre.length
    if goHasSuffix zone accountZone && best.2 < accountZone.length then
      (some k, accountZone.length)
    else best
  else best

/-- `BadgerDB.GetAccount`: exact key `account:username:zone` first, then
a prefix scan over `account:username:` keeping the longest
`"." + zone`-suffix match; after either path an account whose username
unmarshalled empty is reported as `ErrRecordNotFound`. -/
def badgerGetAccount (db : BadgerDB) (username zone : Str) : Except DBErr Account :=
  match List.lookup (makeAccountKey username zone) db.accountPairs with
  | some account => if account.username = [] then .error .notFound else .ok account
  | none =>
    let pre := makeAccountKey username []
    let best := (db.accountPairs.map Prod.fst).foldl (badgerScanStep zone pre) (none, 0)
    match best.1 with
    | none => .error .notFound
    | some k =>
      match List.lookup k db.accountPairs with
      | none => .error .notFound
      | some account => if account.username = [] then .error .notFound else .ok account

/-- `BadgerDB.GetRecords`: prefix scan over `record:fqdn:` keys,
stripping the prefix; empty result is `ErrRecordNotFound`. -/
def badgerGetRecords (db : BadgerDB) (fqdn : Str) : Except DBErr (List Str) :=
  let pre := makeRecordKey fqdn []
  let records := (db.recordKeys.filter (List.isPrefixOf pre)).map (fun k => k.drop pre.length)
  if records.length = 0 then .error .notFound else .ok records

/-- `BadgerDB.PresentRecord`: `txn.Set(makeRecordKey fqdn value, nil)` —
an upsert of a zero-value key. -/
def badgerPresentRecord (db : BadgerDB) (fqdn value : Str) : Except DBErr Unit × BadgerDB :=
  let k := makeRecordKey fqdn value
  if k ∈ db.recordKeys then (.ok (), db)
  else (.ok (), { db with recordKeys := db.recordKeys ++ [k] })

/-- `BadgerDB.CleanupRecord`: `txn.Delete(makeRecordKey fqdn value)` —
unconditional delete, no error when the key is absent. -/
def badgerCleanupRecord (db : BadgerDB) (fqdn value : Str) : Except DBErr Unit × BadgerDB :=
  (.ok (),
    { db with recordKeys := db.recordKeys.filter (fun k => decide (k ≠ makeRecordKey fqdn value)) })

/-- `BadgerDB.RegisterAccount`: marshal the account (digest in the
password field) under `account:username:zone` — an upsert. -/
def badgerRegisterAccount (db : BadgerDB) (a : Account) (passwordHash : Str) :
    Except DBErr Unit × BadgerDB :=
  let a' := { a with password := passwordHash }
  (.ok (), { db with accountPairs := mapSet (makeAccountKey a.username a.zone) a' db.accountPairs })

/-! ## Stores holding a given list of accounts

Each constructor reproduces the store produced by registering the listed
accounts (password fields already holding the digest) in each backend:
the key or row layout is exactly the one `RegisterAccount` writes. -/

/-- The MemDB account key `username + ":" + zone`. -/
def memKey (a : Account) : Str := a.username ++ ':' :: a.zone

/-- The Badger account key `account:username:zone`. -/
def badgerKey (a : Account) : Str := makeAccountKey a.username a.zone

/-- The accounts-table row `RegisterAccount` writes for an account whose
password field already holds the digest. -/
def rowOf (a : Account) : AccountRow := ⟨a.username, a.password, a.zone, cidrString a.allowedIPs⟩

def memOfAccounts (accs : List Account) : MemDB :=
  ⟨[], accs.map (fun a => (memKey a, a))⟩

def badgerOfAccounts (accs : List Account) : BadgerDB :=
  ⟨[], accs.map (fun a => (badgerKey a, a))⟩

def sqliteOfAccounts (accs : List Account) : SQLiteDB :=
  ⟨[], accs.map rowOf, false⟩

/-- Badger record store holding exactly the given (fqdn, value) pairs. -/
def badgerOfRecords (pairs : List (Str × Str)) : BadgerDB :=
  ⟨pairs.map (fun p => makeRecordKey p.1 p.2), []⟩

/-! ## The longest-zone-match specification, in the claim's words -/

/-- The claim's match condition: the zone equals the queried name or the
queried name ends with `"." + zone`. -/
def claimZoneMatch (zone q : Str) : Bool :=
  zone = q || List.isSuffixOf ('.' :: zone) q

/-- All accounts of the username matching the queried name. -/
def claimMatches (accs : List Account) (u q : Str) : List Account :=
  accs.filter (fun a => a.username = u && claimZoneMatch a.zone q)

/-- The claim's winner: a matching account of maximal zone length. -/
def IsWinner (accs : List Account) (u q : Str) (a : Account) : Prop :=
  a ∈ claimMatches accs u q ∧
    ∀ b ∈ claimMatches accs u q, b.zone.length ≤ a.zone.length

/-! ## Input restrictions under which the backends coincide

The amended cross-backend claims restrict the stored strings: `:` is the
key separator of the transient and key-value backends, and `%`, `_` and
ASCII case folding are `LIKE` pattern features of the relational
backend's query; allow-list entries must survive the relational
backend's comma-join / split-and-trim round trip. -/

def colonFree (s : Str) : Bool := s.all (fun c => decide (c ≠ ':'))

def noUpper (s : Str) : Bool := s.all (fun c => decide (¬ ('A' ≤ c ∧ c ≤ 'Z')))

def likePlain (s : Str) : Bool :=
  s.all (fun c => decide (c ≠ '%' ∧ c ≠ '_' ∧ ¬ ('A' ≤ c ∧ c ≤ 'Z')))

def goodEntry (e : Str) : Bool :=
  decide (e ≠ []) && e.all (fun c => decide (c ≠ ',')) && decide (goTrimSpace e = e)

def goodAccount (a : Account) : Bool :=
  decide (a.username ≠ []) && colonFree a.username && colonFree a.zone &&
    likePlain a.zone && a.allowedIPs.all goodEntry

/-! ## DNS resolution (acme.go `ServeDNS`) -/

/-- Modelled from the spec (external CoreDNS helper
`plugin.Zones(zones).Matches(qname)`, not part of this repository):
whether a single zone owns the queried name — the root zone owns
everything, otherwise the name equals the zone or ends with
`"." + zone`. -/
def zoneContains (z qname : Str) : Bool :=
  z = ['.'] || z = qname || List.isSuffixOf ('.' :: z) qname

/-- Modelled from the spec (external CoreDNS helper): the longest
configured zone owning the queried name, or none. -/
def zonesMatches (zones : List Str) (qname : Str) : Option Str :=
  zones.foldl
    (fun best z =>
      if zoneContains z qname then
        match best with
        | none => some z
        | some b => if b.length < z.length then some z else best
      else best)
    none

/-- `strings.HasPrefix(qname, "_acme-challenge.")`. -/
def hasChallengeLabel (qname : Str) : Bool :=
  List.isPrefixOf (str "_acme-challenge.") qname

/-- One TXT resource record of the answer section:
`dns.TXT{Hdr: {Name: qname, Rrtype: TXT, Class: INET, Ttl: 60},
Txt: [record]}`. -/
structure TXTAnswer where
  name : Str
  ttl : Nat
  txt : Str
deriving DecidableEq, Repr

/-- Observable outcome of `ServeDNS`: delegate to the next handler,
NXDOMAIN with no message written, SERVFAIL propagating the storage
error, or a written authoritative reply with the given answers and a
success rcode. -/
inductive DNSOutcome where
  | forward
  | nxdomain
  | servfail (e : DBErr)
  | respond (authoritative : Bool) (answers : List TXTAnswer)
deriving DecidableEq, Repr

/-- `defaultTTL = 60`. -/
def defaultTTL : Nat := 60

/-- `ACME.ServeDNS` (acme.go): zone check, challenge-label check, then
the `GetRecords` lookup (`getRecords` stands for `a.db.GetRecords` and
`fallThrough` for the external `a.Fall.Through`), and only then the
query-type check; non-TXT/ANY queries on a name with records get an
authoritative empty NOERROR answer.  The query type is the
`dns.TypeToString` name of the type, as in the source. -/
def serveDNS (zones : List Str) (fallThrough : Str → Bool)
    (getRecords : Str → Except DBErr (List Str)) (qname qtype : Str) : DNSOutcome :=
  match zonesMatches zones qname with
  | none => .forward
  | some _ =>
    if hasChallengeLabel qname then
      match getRecords qname with
      | .error e =>
        if e = .notFound then
          if fallThrough qname then .forward else .nxdomain
        else .servfail e
      | .ok records =>
        if qtype ≠ str "TXT" ∧ qtype ≠ str "ANY" then .respond true []
        else .respond true (records.map (fun v => ⟨qname, defaultTTL, v⟩))
    else .forward

/-! ## Validation helpers (api.go, cidr_list.go) -/

/-- `TXT_LENGTH = 43` and `isValidTXT` (api.go): exactly 43 characters
from the URL-safe base64 alphabet plus `=`. -/
def isValidTXT (txt : Str) : Bool :=
  txt.length = 43 &&
    txt.all (fun c =>
      ('A' ≤ c && c ≤ 'Z') || ('a' ≤ c && c ≤ 'z') || ('0' ≤ c && c ≤ '9') ||
      c = '-' || c = '_' || c = '=')

/-- ASCII lowercasing, modelling the ASCII fragment of Go
`strings.ToLower` (DNS names in play are ASCII). -/
def asciiLower (c : Char) : Char :=
  if 'A' ≤ c ∧ c ≤ 'Z' then Char.ofNat (c.toNat + 32) else c

/-- Modelled from the spec (external `dns.CanonicalName` of miekg/dns,
not part of this repository): lowercase and ensure a trailing dot. -/
def canonicalName (s : Str) : Str :=
  let f := if s.getLast? = some '.' then s else s ++ ['.']
  f.map asciiLower

/-- External IP/CIDR parsing primitives (Go `net` package), supplied as
parameters to the functions modelled from this repository:
`cidrHasIP c ip` holds when `c` parses as a CIDR, `ip` parses as an IP
and the network contains it; `validCIDR`/`validIP` are parse-success
tests. -/
structure NetPrims where
  cidrHasIP : Str → Str → Bool
  validCIDR : Str → Bool
  validIP : Str → Bool

/-- `sanitizeIPv6addr` (api.go): strip every `[` and `]`. -/
def sanitizeIPv6addr (s : Str) : Str := s.filter (fun c => decide (c ≠ '[' ∧ c ≠ ']'))

/-- `isValidCIDR` (api.go). -/
def isValidCIDR (np : NetPrims) (c : Str) : Bool := np.validCIDR (sanitizeIPv6addr c)

/-- `CIDRList.isValid` (cidr_list.go): every entry is a valid CIDR or a
valid IP. -/
def cidrListIsValid (np : NetPrims) (l : List Str) : Bool :=
  l.all (fun c => isValidCIDR np c || np.validIP c)

/-- `CIDRList.contains` (cidr_list.go): an empty list allows every IP;
otherwise an entry matches by string equality or, when it contains `/`,
by CIDR membership. -/
def cidrContains (np : NetPrims) (l : List Str) (ip : Str) : Bool :=
  if l.length = 0 then true
  else l.any (fun cidr => cidr = ip || (cidr.contains '/' && np.cidrHasIP cidr ip))

/-! ## HTTP API (api.go, auth.go, acme.go `Startup`)

Requests are modelled with the client IP already extracted
(`getClientIP`) and the JSON body already decoded, since the claims
quantify over those observables; the handlers below mirror the Go
control flow on them.  `verify d p` models
`bcrypt.CompareHashAndPassword(d, p) == nil` and `hashF` models
`bcrypt.GenerateFromPassword` (its only failure mode, an invalid cost,
cannot occur at the fixed cost 10). -/

/-- JSON response: status code plus the encoded object's fields. -/
structure APIResponse where
  status : Nat
  fields : List (Str × Str)
deriving DecidableEq, Repr

/-- `writeJSONError` (api.go). -/
def jsonError (msg : Str) (status : Nat) : APIResponse := ⟨status, [(str "error", msg)]⟩

/-- Decoded `ACMETxt` body `{fqdn, value}`. -/
structure ACMETxt where
  fqdn : Str
  value : Str
deriving DecidableEq, Repr

/-- State of the request body as the Auth middleware sees it:
`http.NoBody`, a JSON decode failure, or a decoded `ACMETxt`. -/
inductive BodyState where
  | empty
  | malformed
  | parsed (fqdn value : Str)
deriving DecidableEq, Repr

/-- An API request to `/present` or `/cleanup`: the resolved client IP
(result of `getClientIP`), the body, Basic-Auth credentials when the
header parsed, and the `X-Api-User`/`X-Api-Key` headers (empty string
when absent). -/
structure APIRequest where
  clientIP : Str
  body : BodyState
  basicAuth : Option (Str × Str)
  apiUser : Str
  apiKey : Str
deriving DecidableEq, Repr

/-- `AuthConfig` (acme.go). -/
structure AuthConfig where
  allowedIPs : List Str
  requireAuth : Bool
deriving DecidableEq, Repr

/-- Credential extraction of `getAccountFromRequestAndSubdomain`:
Basic Auth when present, else the `X-Api-*` headers. -/
def credsOf (req : APIRequest) : Str × Str :=
  match req.basicAuth with
  | some up => up
  | none => (req.apiUser, req.apiKey)

/-- The error values of `getAccountFromRequestAndSubdomain` (auth.go). -/
inductive AuthErr where
  | authDisabled
  | noCredentials
  | dbErr (e : DBErr)
  | invalidUsernameOrPassword
deriving DecidableEq, Repr

/-- `getAccountFromRequestAndSubdomain` (auth.go): fail when auth is
disabled or credentials are missing, resolve the account through the
storage layer (`getAccount` stands for `a.db.GetAccount`), then verify
the password against the stored digest. -/
def getAccountFromReq (verify : Str → Str → Bool) (cfg : AuthConfig)
    (getAccount : Str → Str → Except DBErr Account) (req : APIRequest) (subdomain : Str) :
    Except AuthErr Account :=
  if ¬ cfg.requireAuth then .error .authDisabled
  else
    let up := credsOf req
    if up.1 = [] ∨ up.2 = [] then .error .noCredentials
    else
      match getAccount up.1 subdomain with
      | .error e => .error (.dbErr e)
      | .ok account =>
        if verify account.password up.2 then .ok account
        else .error .invalidUsernameOrPassword

/-- `ACME.Auth` (auth.go): global IP gate, body checks, zone and TXT
validation, then authentication and the per-account IP gate; on success
the wrapped handler runs with the resolved account (when auth is
required) and the parsed record in context. -/
def authMiddleware {δ : Type} (np : NetPrims) (verify : Str → Str → Bool) (zones : List Str)
    (cfg : AuthConfig) (getAccount : Str → Str → Except DBErr Account)
    (next : Option Account → Option ACMETxt → δ → APIResponse × δ)
    (req : APIRequest) (db : δ) : APIResponse × δ :=
  if req.clientIP = [] ∨ ¬ cidrContains np cfg.allowedIPs req.clientIP then
    (jsonError (str "forbidden_ip") 403, db)
  else
    match req.body with
    | .empty => (jsonError (str "no_request_body") 400, db)
    | .malformed => (jsonError (str "invalid_request") 400, db)
    | .parsed fqdn0 value =>
      let fqdn := canonicalName fqdn0
      if zonesMatches zones fqdn = none then (jsonError (str "invalid_subdomain") 400, db)
      else if ¬ isValidTXT value then (jsonError (str "invalid_txt_record") 400, db)
      else if cfg.requireAuth then
        match getAccountFromReq verify cfg getAccount req fqdn with
        | .error _ => (jsonError (str "unauthorized") 401, db)
        | .ok account =>
          if account.allowedIPs.length > 0 ∧ ¬ cidrContains np account.allowedIPs req.clientIP then
            (jsonError (str "forbidden_ip") 403, db)
          else next (some account) (some ⟨fqdn, value⟩) db
      else next none (some ⟨fqdn, value⟩) db

/-- `ACME.handlePresent` (api.go): require the account and the parsed
record in context, call `PresentRecord` (`present` stands for
`a.db.PresentRecord`), echo the record on success. -/
def handlePresent {δ : Type} (present : Str → Str → δ → Except DBErr Unit × δ)
    (acc : Option Account) (txt : Option ACMETxt) (db : δ) : APIResponse × δ :=
  match acc with
  | none => (jsonError (str "unauthorized") 401, db)
  | some _ =>
    match txt with
    | none => (jsonError (str "unauthorized") 401, db)
    | some t =>
      match present t.fqdn t.value db with
      | (.error _, db') => (jsonError (str "present_failed") 500, db')
      | (.ok _, db') => (⟨200, [(str "FQDN", t.fqdn), (str "TXT", t.value)]⟩, db')

/-- `ACME.handleCleanup` (api.go). -/
def handleCleanup {δ : Type} (cleanup : Str → Str → δ → Except DBErr Unit × δ)
    (acc : Option Account) (txt : Option ACMETxt) (db : δ) : APIResponse × δ :=
  match acc with
  | none => (jsonError (str "unauthorized") 401, db)
  | some _ =>
    match txt with
    | none => (jsonError (str "unauthorized") 401, db)
    | some t =>
      match cleanup t.fqdn t.value db with
      | (.error _, db') => (jsonError (str "cleanup_failed") 500, db')
      | (.ok _, db') => (⟨200, [(str "FQDN", t.fqdn), (str "TXT", t.value)]⟩, db')

/-- Decoded `RegisterRequest` body; `allowFrom = none` models the
`allowfrom` key being absent (nil slice). -/
structure RegisterRequest where
  username : Str
  password : Str
  zone : Str
  allowFrom : Option (List Str)
deriving DecidableEq, Repr

inductive RegBody where
  | empty
  | malformed
  | parsed (r : RegisterRequest)
deriving DecidableEq, Repr

/-- A request to `/register`: the transport-level peer address and the
body.  `handleRegister` receives the whole request but reads only the
body. -/
structure RegisterHTTPReq where
  remoteAddr : Str
  body : RegBody
deriving DecidableEq, Repr

/-- `ACME.handleRegister` (api.go): body checks, required fields, zone
canonicalization and ownership check, allow-list validation, then hash
the password and store the account (`register` stands for
`a.db.RegisterAccount`). -/
def handleRegister {δ : Type} (np : NetPrims) (hashF : Str → Str) (zones : List Str)
    (register : Account → Str → δ → Except DBErr Unit × δ)
    (req : RegisterHTTPReq) (db : δ) : APIResponse × δ :=
  match req.body with
  | .empty => (jsonError (str "no_registration_request") 400, db)
  | .malformed => (jsonError (str "malformed_json") 400, db)
  | .parsed r =>
    if r.username = [] ∨ r.password = [] ∨ r.zone = [] then
      (jsonError (str "missing_required_fields") 400, db)
    else
      let zone := canonicalName r.zone
      if zonesMatches zones zone = none then (jsonError (str "invalid_zone") 400, db)
      else
        let account : Account := ⟨r.username, r.password, zone, r.allowFrom.getD []⟩
        let finish : δ → APIResponse × δ := fun db =>
          match register account (hashF r.password) db with
          | (.error _, db') => (jsonError (str "registration_failed") 500, db')
          | (.ok _, db') =>
            (⟨201, [(str "message", str "Account registered successfully")]⟩, db')
        match r.allowFrom with
        | some l => if ¬ cidrListIsValid np l then (jsonError (str "invalid_allowfrom_cidr") 400, db) else finish db
        | none => finish db

/-- The plugin configuration fields `Startup` and the handlers read. -/
structure ACMEConfig where
  zones : List Str
  authConfig : AuthConfig
  enableRegistration : Bool
deriving DecidableEq, Repr

/-- The `/present` route as wired by `Startup` (acme.go):
`mux.HandleFunc("POST /present", a.Auth(a.handlePresent))`. -/
def presentEndpoint {δ : Type} (np : NetPrims) (verify : Str → Str → Bool) (cfg : ACMEConfig)
    (getAccount : Str → Str → Except DBErr Account)
    (present : Str → Str → δ → Except DBErr Unit × δ)
    (req : APIRequest) (db : δ) : APIResponse × δ :=
  authMiddleware np verify cfg.zones cfg.authConfig getAccount (handlePresent present) req db

/-- The `/cleanup` route as wired by `Startup` (acme.go). -/
def cleanupEndpoint {δ : Type} (np : NetPrims) (verify : Str → Str → Bool) (cfg : ACMEConfig)
    (getAccount : Str → Str → Except DBErr Account)
    (cleanup : Str → Str → δ → Except DBErr Unit × δ)
    (req : APIRequest) (db : δ) : APIResponse × δ :=
  authMiddleware np verify cfg.zones cfg.authConfig getAccount (handleCleanup cleanup) req db

/-- The `/register` route as wired by `Startup` (acme.go): registered
only when `EnableRegistration` is set, and — unlike `/present` and
`/cleanup` — NOT wrapped in `a.Auth`, so no IP or credential gate runs
before `handleRegister`. -/
def registerEndpoint {δ : Type} (np : NetPrims) (hashF : Str → Str) (cfg : ACMEConfig)
    (register : Account → Str → δ → Except DBErr Unit × δ)
    (req : RegisterHTTPReq) (db : δ) : APIResponse × δ :=
  handleRegister np hashF cfg.zones register req db

/-! # Theorems -/

theorem beq_of_iff {a b : Bool} (h : (a = true) ↔ (b = true)) : a = b := by
  cases a <;> cases b <;> simp_all

theorem colonFree_iff {s : Str} : colonFree s = true ↔ ':' ∉ s := by
  simp only [colonFree, List.all_eq_true, decide_eq_true_eq]
  constructor
  · intro h hm
    exact h ':' hm rfl
  · intro h c hc he
    exact h (he ▸ hc)

theorem suffix_eq_of_length {s1 s2 q : Str} (h1 : s1 <:+ q) (h2 : s2 <:+ q)
    (h : s1.length = s2.length) : s1 = s2 := by
  obtain ⟨t1, ht1⟩ := h1
  obtain ⟨t2, ht2⟩ := h2
  exact (List.append_inj' (ht1.trans ht2.symm) h).2

/-- Two zones matching the same queried name with equal lengths are
equal: suffixes of a list are determined by their length, and the exact
match is strictly longer than every proper-suffix match. -/
theorem claim_match_zone_eq {za zb q : Str} (hma : claimZoneMatch za q = true)
    (hmb : claimZoneMatch zb q = true) (hlen : za.length = zb.length) : za = zb := by
  simp only [claimZoneMatch, Bool.or_eq_true, decide_eq_true_eq,
    List.isSuffixOf_iff_suffix] at hma hmb
  rcases hma with ha | ha <;> rcases hmb with hb | hb
  · exact ha.trans hb.symm
  · subst ha
    have := hb.length_le
    simp only [List.length_cons] at this
    omega
  · subst hb
    have := ha.length_le
    simp only [List.length_cons] at this
    omega
  · have := suffix_eq_of_length ha hb (by simpa using hlen)
    exact List.cons_injective.eq_iff.mp this

theorem winner_unique {accs : List Account} {u q : Str} {a b : Account}
    (hkeys : (accs.map (fun a => (a.username, a.zone))).Nodup)
    (ha : IsWinner accs u q a) (hb : IsWinner accs u q b) : a = b := by
  obtain ⟨hma, hmaxa⟩ := ha
  obtain ⟨hmb, hmaxb⟩ := hb
  have hlen : a.zone.length = b.zone.length :=
    Nat.le_antisymm (hmaxb a hma) (hmaxa b hmb)
  have hza : (decide (a.username = u) && claimZoneMatch a.zone q) = true :=
    (List.mem_filter.mp hma).2
  have hzb : (decide (b.username = u) && claimZoneMatch b.zone q) = true :=
    (List.mem_filter.mp hmb).2
  simp only [Bool.and_eq_true, decide_eq_true_eq] at hza hzb
  have hzone : a.zone = b.zone := claim_match_zone_eq hza.2 hzb.2 hlen
  exact List.inj_on_of_nodup_map hkeys (List.mem_filter.mp hma).1 (List.mem_filter.mp hmb).1
    (by rw [hza.1, hzb.1, hzone])

/-- A colon-terminated key stem is a prefix of a longer colon-separated
key exactly when the stems agree, provided neither stem contains the
separator. -/
theorem colon_pre_iff {v : Str} {f g : Str} (hf : ':' ∉ f) (hg : ':' ∉ g) :
    ((f ++ [':']) <+: (g ++ ':' :: v)) ↔ f = g := by
  induction f generalizing g with
  | nil =>
    cases g with
    | nil => simp
    | cons g0 gs =>
      simp only [List.nil_append, List.cons_append, List.cons_prefix_cons]
      constructor
      · rintro ⟨h, -⟩
        subst h
        simp at hg
      · intro h
        exact absurd h (by simp)
  | cons f0 fs ih =>
    cases g with
    | nil =>
      simp only [List.cons_append, List.nil_append, List.cons_prefix_cons]
      constructor
      · rintro ⟨h, -⟩
        subst h
        simp at hf
      · intro h
        exact absurd h (by simp)
    | cons g0 gs =>
      have hf' : ':' ∉ fs := fun h => hf (List.mem_cons_of_mem _ h)
      have hg' : ':' ∉ gs := fun h => hg (List.mem_cons_of_mem _ h)
      simp only [List.cons_append, List.cons_prefix_cons, ih hf' hg', List.cons_eq_cons]

/-- Colon-separated keys built from colon-free stems are injective. -/
theorem colon_key_inj {u u' z z' : Str} (hu : ':' ∉ u) (hu' : ':' ∉ u')
    (h : u ++ ':' :: z = u' ++ ':' :: z') : u = u' ∧ z = z' := by
  induction u generalizing u' with
  | nil =>
    cases u' with
    | nil => simpa using h
    | cons c cs =>
      simp only [List.nil_append, List.cons_append, List.cons_eq_cons] at h
      exact absurd h.1.symm (by rintro rfl; simp at hu')
  | cons c cs ih =>
    cases u' with
    | nil =>
      simp only [List.cons_append, List.nil_append, List.cons_eq_cons] at h
      exact absurd h.1 (by rintro rfl; simp at hu)
    | cons c' cs' =>
      simp only [List.cons_append, List.cons_eq_cons] at h
      have := ih (fun hm => hu (List.mem_cons_of_mem _ hm))
        (fun hm => hu' (List.mem_cons_of_mem _ hm)) h.2
      exact ⟨by rw [h.1, this.1], this.2⟩

theorem lookup_mem {α : Type} {k : Str} {v : α} {l : List (Str × α)}
    (h : List.lookup k l = some v) : (k, v) ∈ l := by
  induction l with
  | nil => simp [List.lookup] at h
  | cons p rest ih =>
    obtain ⟨k', v'⟩ := p
    by_cases hk : k = k'
    · subst hk
      simp only [List.lookup, beq_self_eq_true, Option.some_inj] at h
      subst h
      exact List.mem_cons_self _ _
    · simp only [List.lookup, beq_eq_false_iff_ne.mpr hk] at h
      exact List.mem_cons_of_mem _ (ih h)

theorem goSplit_no_sep {c : Char} {l : Str} (h : c ∉ l) : goSplit c l = [l] := by
  induction l with
  | nil => rfl
  | cons x xs ih =>
    have hx : ¬ x = c := fun he => h (he ▸ List.mem_cons_self ..)
    have hxs : c ∉ xs := fun hm => h (List.mem_cons_of_mem _ hm)
    simp only [goSplit, if_neg hx, ih hxs]

theorem goSplit_sep_append {c : Char} {x y : Str} (h : c ∉ x) :
    goSplit c (x ++ c :: y) = x :: goSplit c y := by
  induction x with
  | nil => simp [goSplit]
  | cons a as ih =>
    have ha : ¬ a = c := fun he => h (he ▸ List.mem_cons_self ..)
    have has : c ∉ as := fun hm => h (List.mem_cons_of_mem _ hm)
    simp only [List.cons_append, goSplit, if_neg ha, List.append_eq]
    rw [ih has]

theorem goSplit_memKey {a : Account} (hu : ':' ∉ a.username) (hz : ':' ∉ a.zone) :
    goSplit ':' (memKey a) = [a.username, a.zone] := by
  rw [memKey, goSplit_sep_append hu, goSplit_no_sep hz]

theorem lookup_keymap_eq_none {α : Type} (key : α → Str) {l : List α} {k : Str} :
    List.lookup k (l.map (fun x => (key x, x))) = none ↔ ∀ a ∈ l, key a ≠ k := by
  induction l with
  | nil => simp [List.lookup]
  | cons b rest ih =>
    simp only [List.map_cons, List.lookup]
    cases hbe : (k == key b) with
    | true =>
      have hk : k = key b := by simpa using hbe
      constructor
      · intro h
        exact absurd h (by simp)
      · intro h
        exact absurd hk.symm (h b (List.mem_cons_self ..))
    | false =>
      rw [ih]
      constructor
      · intro h a ha
        rcases List.mem_cons.mp ha with rfl | ha'
        · intro he
          rw [he] at hbe
          simp at hbe
        · exact h a ha'
      · intro h a ha
        exact h a (List.mem_cons_of_mem _ ha)

theorem lookup_keymap_eq_some {α : Type} (key : α → Str) {l : List α} {k : Str} {a : α}
    (h : List.lookup k (l.map (fun x => (key x, x))) = some a) : a ∈ l ∧ key a = k := by
  have hmem := lookup_mem h
  obtain ⟨x, hx, he⟩ := List.mem_map.mp hmem
  have h1 : key x = k := congrArg Prod.fst he
  have h2 : x = a := congrArg Prod.snd he
  subst h2
  exact ⟨hx, h1⟩

theorem lookup_keymap_self {α : Type} (key : α → Str) {l : List α} {a : α}
    (inj : ∀ x ∈ l, ∀ y ∈ l, key x = key y → x = y) (ha : a ∈ l) :
    List.lookup (key a) (l.map (fun x => (key x, x))) = some a := by
  induction l with
  | nil => simp at ha
  | cons b rest ih =>
    simp only [List.map_cons, List.lookup]
    cases hbe : (key a == key b) with
    | true =>
      have hk : key a = key b := by simpa using hbe
      rw [inj a ha b (List.mem_cons_self ..) hk]
    | false =>
      have hane : a ≠ b := fun he => by rw [he] at hbe; simp at hbe
      have ha' : a ∈ rest := by
        rcases List.mem_cons.mp ha with h | h
        · exact absurd h hane
        · exact h
      exact ih (fun x hx y hy => inj x (List.mem_cons_of_mem _ hx) y (List.mem_cons_of_mem _ hy))
        ha'

/-- Characterization of the shared best-match fold of the MemDB and
BadgerDB `GetAccount` scans: on each candidate surviving the filter `m`
the state advances to `(pick a, score a)` when the score strictly
improves.  The result is the initial state when nothing matched,
otherwise the stored candidate matches and its score bounds every
candidate's score. -/
theorem bestFold_spec {α β : Type} (step : β × Nat → α → β × Nat) (pick : α → β)
    (m : α → Bool) (score : α → Nat) (l : List α)
    (hstep : ∀ st, ∀ a ∈ l, step st a =
      if m a && decide (st.2 < score a) then (pick a, score a) else st)
    (st : β × Nat) :
    (l.foldl step st = st ∨
      ∃ a ∈ l, m a = true ∧ l.foldl step st = (pick a, score a)) ∧
    (∀ a ∈ l, m a = true → score a ≤ (l.foldl step st).2) ∧
    st.2 ≤ (l.foldl step st).2 := by
  induction l generalizing st with
  | nil => exact ⟨Or.inl rfl, by simp, le_refl _⟩
  | cons a l' ih =>
    have hstep' : ∀ st, ∀ b ∈ l', step st b =
        if m b && decide (st.2 < score b) then (pick b, score b) else st :=
      fun st b hb => hstep st b (List.mem_cons_of_mem _ hb)
    simp only [List.foldl_cons]
    rw [hstep st a (List.mem_cons_self ..)]
    by_cases hcond : m a = true ∧ st.2 < score a
    · rw [if_pos (by simp [hcond.1, hcond.2])]
      obtain ⟨ih1, ih2, ih3⟩ := (ih hstep') (pick a, score a)
      refine ⟨?_, ?_, ?_⟩
      · rcases ih1 with h | ⟨b, hb, hmb, hfold⟩
        · exact Or.inr ⟨a, List.mem_cons_self .., hcond.1, h⟩
        · exact Or.inr ⟨b, List.mem_cons_of_mem _ hb, hmb, hfold⟩
      · intro b hb hmb
        rcases List.mem_cons.mp hb with rfl | hb'
        · exact le_trans (by simp) ih3
        · exact ih2 b hb' hmb
      · exact le_trans (le_of_lt hcond.2) (by simpa using ih3)
    · rw [if_neg (by
        intro hc
        simp only [Bool.and_eq_true, decide_eq_true_eq] at hc
        exact hcond hc)]
      obtain ⟨ih1, ih2, ih3⟩ := (ih hstep') st
      refine ⟨?_, ?_, ih3⟩
      · rcases ih1 with h | ⟨b, hb, hmb, hfold⟩
        · exact Or.inl h
        · exact Or.inr ⟨b, List.mem_cons_of_mem _ hb, hmb, hfold⟩
      · intro b hb hmb
        rcases List.mem_cons.mp hb with rfl | hb'
        · have : ¬ st.2 < score b := fun hlt => hcond ⟨hmb, hlt⟩
          exact le_trans (Nat.not_lt.mp this) ih3
        · exact ih2 b hb' hmb

theorem sqlLowerChar_of_not_upper {c : Char} (h : ¬ ('A' ≤ c ∧ c ≤ 'Z')) :
    sqlLowerChar c = c := by
  simp [sqlLowerChar, h]

theorem likePlain_iff {s : Str} :
    likePlain s = true ↔ ∀ c ∈ s, c ≠ '%' ∧ c ≠ '_' ∧ ¬ ('A' ≤ c ∧ c ≤ 'Z') := by
  simp only [likePlain, List.all_eq_true, decide_eq_true_eq]

theorem noUpper_iff {s : Str} : noUpper s = true ↔ ∀ c ∈ s, ¬ ('A' ≤ c ∧ c ≤ 'Z') := by
  simp only [noUpper, List.all_eq_true, decide_eq_true_eq]

/-- A `LIKE` pattern free of wildcards and ASCII uppercase matches an
uppercase-free string exactly when they are equal. -/
theorem sqlLike_plain : ∀ {p s : Str},
    (∀ c ∈ p, c ≠ '%' ∧ c ≠ '_' ∧ ¬ ('A' ≤ c ∧ c ≤ 'Z')) →
    (∀ c ∈ s, ¬ ('A' ≤ c ∧ c ≤ 'Z')) →
    (sqlLike p s = true ↔ p = s)
  | [], [], _, _ => by simp [sqlLike]
  | [], c :: s', _, _ => by simp [sqlLike]
  | p :: ps, [], hp, _ => by
    have hpc := hp p (List.mem_cons_self ..)
    rw [sqlLike, if_neg hpc.1]
    simp
  | p :: ps, c :: s', hp, hs => by
    have hpc := hp p (List.mem_cons_self ..)
    have hps : ∀ d ∈ ps, d ≠ '%' ∧ d ≠ '_' ∧ ¬ ('A' ≤ d ∧ d ≤ 'Z') :=
      fun d hd => hp d (List.mem_cons_of_mem _ hd)
    have hsc := hs c (List.mem_cons_self ..)
    have hs' : ∀ d ∈ s', ¬ ('A' ≤ d ∧ d ≤ 'Z') :=
      fun d hd => hs d (List.mem_cons_of_mem _ hd)
    rw [sqlLike, if_neg hpc.1]
    show (if p = '_' then sqlLike ps s'
        else decide (sqlLowerChar p = sqlLowerChar c) && sqlLike ps s') = true ↔ _
    rw [if_neg hpc.2.1]
    simp only [Bool.and_eq_true, decide_eq_true_eq, List.cons_eq_cons,
      sqlLike_plain hps hs', sqlLowerChar_of_not_upper hpc.2.2,
      sqlLowerChar_of_not_upper hsc]

/-- The `%` loop matches by dropping some prefix of the string. -/
theorem starLoop_iff {f : Str → Bool} : ∀ (s : Str),
    (starLoop f s = true ↔ ∃ n, f (s.drop n) = true)
  | [] => by
    rw [starLoop]
    constructor
    · intro h
      exact ⟨0, h⟩
    · rintro ⟨n, h⟩
      rwa [List.drop_nil] at h
  | c :: s' => by
    rw [starLoop]
    simp only [Bool.or_eq_true]
    rw [starLoop_iff s']
    constructor
    · rintro (h | ⟨n, h⟩)
      · exact ⟨0, h⟩
      · exact ⟨n + 1, h⟩
    · rintro ⟨n, h⟩
      cases n with
      | zero => exact Or.inl h
      | succ n' => exact Or.inr ⟨n', h⟩

/-- Under the wildcard and case restrictions, the account query's
`? LIKE '%.' || zone` condition is exactly the `"." + zone` suffix
test. -/
theorem sqlLike_suffix_iff {z q : Str} (hz : likePlain z = true) (hq : noUpper q = true) :
    sqlLike ('%' :: '.' :: z) q = true ↔ ('.' :: z) <:+ q := by
  show starLoop (sqlLike ('.' :: z)) q = true ↔ ('.' :: z) <:+ q
  rw [starLoop_iff q]
  have hpat : ∀ c ∈ ('.' :: z), c ≠ '%' ∧ c ≠ '_' ∧ ¬ ('A' ≤ c ∧ c ≤ 'Z') := by
    intro c hc
    rcases List.mem_cons.mp hc with rfl | hc'
    · refine ⟨by decide, by decide, by decide⟩
    · exact likePlain_iff.mp hz c hc'
  constructor
  · rintro ⟨n, h⟩
    have hdropU : ∀ c ∈ q.drop n, ¬ ('A' ≤ c ∧ c ≤ 'Z') :=
      fun c hc => noUpper_iff.mp hq c (List.drop_subset n q hc)
    have := (sqlLike_plain hpat hdropU).mp h
    rw [this]
    exact List.drop_suffix n q
  · intro h
    obtain ⟨t, ht⟩ := h
    refine ⟨t.length, ?_⟩
    have hdrop : q.drop t.length = '.' :: z := by
      rw [← ht, List.drop_left]
    rw [hdrop]
    have hdropU : ∀ c ∈ ('.' :: z), ¬ ('A' ≤ c ∧ c ≤ 'Z') := by
      intro c hc
      exact (hpat c hc).2.2
    exact (sqlLike_plain hpat hdropU).mpr rfl

theorem goodEntry_iff {e : Str} :
    goodEntry e = true ↔ e ≠ [] ∧ ',' ∉ e ∧ goTrimSpace e = e := by
  simp only [goodEntry, Bool.and_eq_true, List.all_eq_true, decide_eq_true_eq]
  constructor
  · rintro ⟨⟨h1, h2⟩, h3⟩
    exact ⟨h1, fun hm => h2 ',' hm rfl, h3⟩
  · rintro ⟨h1, h2, h3⟩
    exact ⟨⟨h1, fun c hc he => h2 (he ▸ hc)⟩, h3⟩

theorem goodAccount_spec {a : Account} (h : goodAccount a = true) :
    a.username ≠ [] ∧ ':' ∉ a.username ∧ ':' ∉ a.zone ∧ likePlain a.zone = true ∧
      ∀ e ∈ a.allowedIPs, e ≠ [] ∧ ',' ∉ e ∧ goTrimSpace e = e := by
  simp only [goodAccount, Bool.and_eq_true, decide_eq_true_eq] at h
  obtain ⟨⟨⟨⟨h1, h2⟩, h3⟩, h4⟩, h5⟩ := h
  refine ⟨h1, colonFree_iff.mp h2, colonFree_iff.mp h3, h4, fun e he => ?_⟩
  exact goodEntry_iff.mp (List.all_eq_true.mp h5 e he)

theorem goJoin_comma_split : ∀ {l : List Str}, (∀ e ∈ l, ',' ∉ e) → l ≠ [] →
    goSplit ',' (goJoin [','] l) = l
  | [], _, hne => absurd rfl hne
  | [e], h, _ => by
    show goSplit ',' e = [e]
    exact goSplit_no_sep (h e (List.mem_cons_self ..))
  | e :: e2 :: t2, h, _ => by
    have h2 : ∀ x ∈ e2 :: t2, ',' ∉ x := fun x hx => h x (List.mem_cons_of_mem _ hx)
    have hj : goJoin [','] (e :: e2 :: t2) = e ++ ',' :: goJoin [','] (e2 :: t2) := by
      show e ++ [','] ++ goJoin [','] (e2 :: t2) = _
      rw [List.append_assoc, List.singleton_append]
    rw [hj, goSplit_sep_append (h e (List.mem_cons_self ..)),
      goJoin_comma_split h2 (by simp)]

theorem cidrString_ne_nil : ∀ {l : List Str}, l ≠ [] → (∀ e ∈ l, e ≠ []) →
    cidrString l ≠ []
  | [], hne, _ => absurd rfl hne
  | [e], _, h => by
    show ¬ e = []
    exact h e (List.mem_cons_self ..)
  | e :: e2 :: t2, _, _ => by
    show ¬ e ++ [','] ++ goJoin [','] (e2 :: t2) = []
    simp

theorem newCIDRList_cidrString {l : List Str} (hne : l ≠ [])
    (h : ∀ e ∈ l, e ≠ [] ∧ ',' ∉ e ∧ goTrimSpace e = e) :
    newCIDRList (cidrString l) = l := by
  have hcs : cidrString l ≠ [] := cidrString_ne_nil hne (fun e he => (h e he).1)
  rw [newCIDRList, if_neg hcs]
  rw [show cidrString l = goJoin [','] l from rfl,
    goJoin_comma_split (fun e he => (h e he).2.1) hne]
  rw [List.map_congr_left (fun e he => (h e he).2.2), List.map_id']
  rw [List.filter_eq_self.mpr (fun e he => by simpa using (h e he).1)]

theorem rowToAccount_rowOf {a : Account} (h : goodAccount a = true) :
    rowToAccount (rowOf a) = a := by
  have hips := (goodAccount_spec h).2.2.2.2
  obtain ⟨au, ap, az, ai⟩ := a
  rw [rowToAccount, rowOf]
  simp only
  cases hl : ai with
  | nil => simp [cidrString, goJoin]
  | cons e t =>
    have hne : ai ≠ [] := by rw [hl]; simp
    rw [← hl]
    have hcs : cidrString ai ≠ [] := cidrString_ne_nil hne (fun e he => (hips e he).1)
    rw [if_neg hcs, newCIDRList_cidrString hne hips]

theorem goHasSuffix_iff {s suf : Str} : goHasSuffix s suf = true ↔ suf <:+ s := by
  rw [goHasSuffix, List.isSuffixOf_iff_suffix]

theorem claimZoneMatch_iff {z q : Str} :
    claimZoneMatch z q = true ↔ z = q ∨ ('.' :: z) <:+ q := by
  simp [claimZoneMatch, List.isSuffixOf_iff_suffix]

theorem mem_claimMatches {accs : List Account} {u q : Str} {a : Account} :
    a ∈ claimMatches accs u q ↔
      a ∈ accs ∧ a.username = u ∧ (a.zone = q ∨ ('.' :: a.zone) <:+ q) := by
  rw [claimMatches, List.mem_filter, Bool.and_eq_true, decide_eq_true_eq, claimZoneMatch_iff]

/-- An exact-zone account is the longest match. -/
theorem exact_is_winner {accs : List Account} {u q : Str} {a : Account}
    (ha : a ∈ accs) (hau : a.username = u) (haz : a.zone = q) : IsWinner accs u q a := by
  refine ⟨mem_claimMatches.mpr ⟨ha, hau, Or.inl haz⟩, ?_⟩
  intro b hb
  rcases (mem_claimMatches.mp hb).2.2 with heq | hsuf
  · rw [heq, haz]
  · have := hsuf.length_le
    simp only [List.length_cons] at this
    rw [haz]
    omega

/-- Core correctness of `MemDB.GetAccount` on well-formed stores: it
returns the claim's longest-match winner, or not-found when no account
matches. -/
theorem mem_spec (accs : List Account) (u q : Str)
    (hgood : ∀ a ∈ accs, goodAccount a = true)
    (hkeys : (accs.map (fun a => (a.username, a.zone))).Nodup)
    (hu : colonFree u = true) :
    (∃ w, IsWinner accs u q w ∧ memGetAccount (memOfAccounts accs) u q = .ok w) ∨
    (claimMatches accs u q = [] ∧
      memGetAccount (memOfAccounts accs) u q = .error .notFound) := by
  have hcu : ':' ∉ u := colonFree_iff.mp hu
  have hkinj : ∀ x ∈ accs, ∀ y ∈ accs, memKey x = memKey y → x = y := by
    intro x hx y hy he
    obtain ⟨h1, h2⟩ := colon_key_inj (goodAccount_spec (hgood x hx)).2.1
      (goodAccount_spec (hgood y hy)).2.1 he
    exact List.inj_on_of_nodup_map hkeys hx hy (by rw [h1, h2])
  have hacc : (memOfAccounts accs).accounts = accs.map (fun a => (memKey a, a)) := rfl
  cases he : List.lookup (u ++ ':' :: q) ((memOfAccounts accs).accounts) with
  | some a0 =>
    have hsome := lookup_keymap_eq_some memKey (hacc ▸ he)
    obtain ⟨ha0, hkey⟩ := hsome
    obtain ⟨hu0, hz0⟩ := colon_key_inj (goodAccount_spec (hgood a0 ha0)).2.1 hcu hkey
    left
    refine ⟨a0, exact_is_winner ha0 hu0 hz0, ?_⟩
    simp only [memGetAccount, he]
  | none =>
    have hnone : ∀ a ∈ accs, ¬ (a.username = u ∧ a.zone = q) := by
      intro a ha hand
      have hself := lookup_keymap_self memKey hkinj ha
      rw [memKey, hand.1, hand.2] at hself
      rw [hacc] at he
      rw [he] at hself
      exact Option.noConfusion hself
    have hstep : ∀ st : Account × Nat, ∀ a ∈ accs,
        memScanStep u q st (memKey a, a) =
          if (decide (a.username = u) && goHasSuffix q ('.' :: a.zone)) &&
              decide (st.2 < a.zone.length + 1)
          then ((fun a => a) a, a.zone.length + 1) else st := by
      intro st a ha
      have hspec := goodAccount_spec (hgood a ha)
      simp only [memScanStep]
      rw [goSplit_memKey hspec.2.1 hspec.2.2.1]
      simp only [List.length_cons]
      by_cases h1 : a.username = u
      · by_cases h2 : goHasSuffix q ('.' :: a.zone) = true
        · simp [h1, h2]
        · simp [h1, h2]
      · simp [h1]
    obtain ⟨hdis, hmax, -⟩ :=
      bestFold_spec (fun st a => memScanStep u q st (memKey a, a)) (fun a => a)
        (fun a => decide (a.username = u) && goHasSuffix q ('.' :: a.zone))
        (fun a => a.zone.length + 1) accs hstep (defaultAccount, 0)
    have hfold : (memOfAccounts accs).accounts.foldl (memScanStep u q) (defaultAccount, 0) =
        accs.foldl (fun st a => memScanStep u q st (memKey a, a)) (defaultAccount, 0) := by
      rw [hacc, List.foldl_map]
    by_cases hex : ∃ b ∈ accs, (decide (b.username = u) && goHasSuffix q ('.' :: b.zone)) = true
    · obtain ⟨b0, hb0, hmb0⟩ := hex
      have hpos : 0 <
          (accs.foldl (fun st a => memScanStep u q st (memKey a, a)) (defaultAccount, 0)).2 :=
        lt_of_lt_of_le (Nat.succ_pos _) (hmax b0 hb0 hmb0)
      rcases hdis with hR | ⟨w, hw, hmw, hRw⟩
      · rw [hR] at hpos
        exact absurd hpos (by simp)
      · left
        simp only [Bool.and_eq_true, decide_eq_true_eq, goHasSuffix_iff] at hmw
        have hwmem : w ∈ claimMatches accs u q :=
          mem_claimMatches.mpr ⟨hw, hmw.1, Or.inr hmw.2⟩
        have hwmax : ∀ b ∈ claimMatches accs u q, b.zone.length ≤ w.zone.length := by
          intro b hb
          obtain ⟨hbin, hbu, hbz⟩ := mem_claimMatches.mp hb
          rcases hbz with heq | hsuf
          · exact absurd ⟨hbu, heq⟩ (hnone b hbin)
          · have := hmax b hbin (by simp [hbu, goHasSuffix_iff, hsuf])
            rw [hRw] at this
            simpa using Nat.le_of_succ_le_succ this
        refine ⟨w, ⟨hwmem, hwmax⟩, ?_⟩
        simp only [memGetAccount, he]
        rw [hfold, hRw]
        simp
    · right
      have hmt : claimMatches accs u q = [] := by
        rw [claimMatches, List.filter_eq_nil_iff]
        intro a ha hpred
        simp only [Bool.and_eq_true, decide_eq_true_eq, claimZoneMatch_iff] at hpred
        rcases hpred.2 with heq | hsuf
        · exact hnone a ha ⟨hpred.1, heq⟩
        · exact hex ⟨a, ha, by simp [hpred.1, goHasSuffix_iff, hsuf]⟩
      refine ⟨hmt, ?_⟩
      rcases hdis with hR | ⟨w, hw, hmw, -⟩
      · simp only [memGetAccount, he]
        rw [hfold, hR]
        simp [defaultAccount]
      · exact absurd ⟨w, hw, hmw⟩ hex

theorem badgerKey_assoc (a : Account) :
    badgerKey a = accountKeySpace ++ (a.username ++ ':' :: a.zone) := by
  rw [badgerKey, makeAccountKey, List.append_assoc]

theorem badgerKey_inj {x y : Account} (hx : ':' ∉ x.username) (hy : ':' ∉ y.username)
    (h : badgerKey x = badgerKey y) : x.username = y.username ∧ x.zone = y.zone := by
  rw [badgerKey_assoc, badgerKey_assoc] at h
  exact colon_key_inj hx hy (List.append_cancel_left h)

/-- Core correctness of `BadgerDB.GetAccount` on well-formed stores. -/
theorem badger_spec (accs : List Account) (u q : Str)
    (hgood : ∀ a ∈ accs, goodAccount a = true)
    (hkeys : (accs.map (fun a => (a.username, a.zone))).Nodup)
    (hu : colonFree u = true) :
    (∃ w, IsWinner accs u q w ∧ badgerGetAccount (badgerOfAccounts accs) u q = .ok w) ∨
    (claimMatches accs u q = [] ∧
      badgerGetAccount (badgerOfAccounts accs) u q = .error .notFound) := by
  have hcu : ':' ∉ u := colonFree_iff.mp hu
  have hkinj : ∀ x ∈ accs, ∀ y ∈ accs, badgerKey x = badgerKey y → x = y := by
    intro x hx y hy he
    obtain ⟨h1, h2⟩ := badgerKey_inj (goodAccount_spec (hgood x hx)).2.1
      (goodAccount_spec (hgood y hy)).2.1 he
    exact List.inj_on_of_nodup_map hkeys hx hy (by rw [h1, h2])
  have hacc : (badgerOfAccounts accs).accountPairs = accs.map (fun a => (badgerKey a, a)) := rfl
  have hpre_key : ∀ a ∈ accs,
      List.isPrefixOf (makeAccountKey u []) (badgerKey a) = decide (a.username = u) := by
    intro a ha
    apply beq_of_iff
    rw [List.isPrefixOf_iff_prefix, decide_eq_true_eq]
    rw [badgerKey_assoc, show makeAccountKey u [] = accountKeySpace ++ (u ++ [':']) by
      rw [makeAccountKey, List.append_assoc]]
    rw [List.prefix_append_right_inj]
    exact (colon_pre_iff hcu (goodAccount_spec (hgood a ha)).2.1).trans eq_comm
  have hkey_drop : ∀ a ∈ accs, a.username = u →
      (badgerKey a).drop (makeAccountKey u []).length = a.zone := by
    intro a _ hau
    have : badgerKey a = makeAccountKey u [] ++ a.zone := by
      rw [badgerKey, hau, makeAccountKey, makeAccountKey]
      simp
    rw [this, List.drop_left]
  cases he : List.lookup (makeAccountKey u q) ((badgerOfAccounts accs).accountPairs) with
  | some a0 =>
    obtain ⟨ha0, hkey⟩ := lookup_keymap_eq_some badgerKey (hacc ▸ he)
    have hkey' : badgerKey a0 = accountKeySpace ++ (u ++ ':' :: q) := by
      rw [hkey, makeAccountKey, List.append_assoc]
    rw [badgerKey_assoc] at hkey'
    obtain ⟨hu0, hz0⟩ := colon_key_inj (goodAccount_spec (hgood a0 ha0)).2.1 hcu
      (List.append_cancel_left hkey')
    have hne : ¬ a0.username = [] := hu0 ▸ (goodAccount_spec (hgood a0 ha0)).1
    left
    refine ⟨a0, exact_is_winner ha0 hu0 hz0, ?_⟩
    simp only [badgerGetAccount, he, if_neg hne]
  | none =>
    have hnone : ∀ a ∈ accs, ¬ (a.username = u ∧ a.zone = q) := by
      intro a ha hand
      have hself := lookup_keymap_self badgerKey hkinj ha
      rw [badgerKey, hand.1, hand.2] at hself
      rw [hacc] at he
      rw [he] at hself
      exact Option.noConfusion hself
    have hstep : ∀ st : Option Str × Nat, ∀ a ∈ accs,
        badgerScanStep q (makeAccountKey u []) st (badgerKey a) =
          if (decide (a.username = u) && goHasSuffix q ('.' :: a.zone)) &&
              decide (st.2 < a.zone.length + 1)
          then ((fun a => some (badgerKey a)) a, a.zone.length + 1) else st := by
      intro st a ha
      simp only [badgerScanStep]
      rw [hpre_key a ha]
      by_cases h1 : a.username = u
      · rw [hkey_drop a ha h1]
        simp only [List.length_cons]
        by_cases h2 : goHasSuffix q ('.' :: a.zone) = true
        · simp [h1, h2]
        · simp [h1, h2]
      · simp [h1]
    obtain ⟨hdis, hmax, -⟩ :=
      bestFold_spec (fun st a => badgerScanStep q (makeAccountKey u []) st (badgerKey a))
        (fun a => some (badgerKey a))
        (fun a => decide (a.username = u) && goHasSuffix q ('.' :: a.zone))
        (fun a => a.zone.length + 1) accs hstep (none, 0)
    have hfold : ((badgerOfAccounts accs).accountPairs.map Prod.fst).foldl
        (badgerScanStep q (makeAccountKey u [])) (none, 0) =
        accs.foldl (fun st a => badgerScanStep q (makeAccountKey u []) st (badgerKey a))
          (none, 0) := by
      rw [hacc, List.map_map]
      rw [List.foldl_map]
      rfl
    by_cases hex : ∃ b ∈ accs, (decide (b.username = u) && goHasSuffix q ('.' :: b.zone)) = true
    · obtain ⟨b0, hb0, hmb0⟩ := hex
      have hpos : 0 < (accs.foldl
          (fun st a => badgerScanStep q (makeAccountKey u []) st (badgerKey a)) (none, 0)).2 :=
        lt_of_lt_of_le (Nat.succ_pos _) (hmax b0 hb0 hmb0)
      rcases hdis with hR | ⟨w, hw, hmw, hRw⟩
      · rw [hR] at hpos
        exact absurd hpos (by simp)
      · left
        simp only [Bool.and_eq_true, decide_eq_true_eq, goHasSuffix_iff] at hmw
        have hwmem : w ∈ claimMatches accs u q :=
          mem_claimMatches.mpr ⟨hw, hmw.1, Or.inr hmw.2⟩
        have hwmax : ∀ b ∈ claimMatches accs u q, b.zone.length ≤ w.zone.length := by
          intro b hb
          obtain ⟨hbin, hbu, hbz⟩ := mem_claimMatches.mp hb
          rcases hbz with heq | hsuf
          · exact absurd ⟨hbu, heq⟩ (hnone b hbin)
          · have := hmax b hbin (by simp [hbu, goHasSuffix_iff, hsuf])
            rw [hRw] at this
            simpa using Nat.le_of_succ_le_succ this
        have hne : ¬ w.username = [] := hmw.1 ▸ (goodAccount_spec (hgood w hw)).1
        refine ⟨w, ⟨hwmem, hwmax⟩, ?_⟩
        simp only [badgerGetAccount, he]
        rw [hfold, hRw]
        rw [hacc]
        simp [lookup_keymap_self badgerKey hkinj hw, hne]
    · right
      have hmt : claimMatches accs u q = [] := by
        rw [claimMatches, List.filter_eq_nil_iff]
        intro a ha hpred
        simp only [Bool.and_eq_true, decide_eq_true_eq, claimZoneMatch_iff] at hpred
        rcases hpred.2 with heq | hsuf
        · exact hnone a ha ⟨hpred.1, heq⟩
        · exact hex ⟨a, ha, by simp [hpred.1, goHasSuffix_iff, hsuf]⟩
      refine ⟨hmt, ?_⟩
      rcases hdis with hR | ⟨w, hw, hmw, -⟩
      · simp only [badgerGetAccount, he]
        rw [hfold, hR]
      · exact absurd ⟨w, hw, hmw⟩ hex

/-- Under the character restrictions, the SQL row filter keeps exactly
the rows of the claim's matching accounts. -/
theorem sqlite_filter_eq (accs : List Account) (u q : Str)
    (hgood : ∀ a ∈ accs, goodAccount a = true) (hq : noUpper q = true) :
    (sqliteOfAccounts accs).accounts.filter (sqlAccountMatch u q) =
      (claimMatches accs u q).map rowOf := by
  show (accs.map rowOf).filter (sqlAccountMatch u q) = _
  rw [List.filter_map, claimMatches]
  congr 1
  apply List.filter_congr
  intro a ha
  have hz := (goodAccount_spec (hgood a ha)).2.2.2.1
  have hlike : sqlLike ('%' :: '.' :: a.zone) q = List.isSuffixOf ('.' :: a.zone) q := by
    apply beq_of_iff
    rw [sqlLike_suffix_iff hz hq, List.isSuffixOf_iff_suffix]
  simp only [Function.comp_apply, sqlAccountMatch, rowOf, claimZoneMatch, hlike]

theorem sqlite_rel_ok_iff {accs : List Account} {u q : Str} {x : Account}
    (hgood : ∀ a ∈ accs, goodAccount a = true) (hq : noUpper q = true) :
    sqliteGetAccountRel (sqliteOfAccounts accs) u q (.ok x) ↔ IsWinner accs u q x := by
  have hfe := sqlite_filter_eq accs u q hgood hq
  show (∃ r ∈ (sqliteOfAccounts accs).accounts.filter (sqlAccountMatch u q),
      x = rowToAccount r ∧
        ∀ r' ∈ (sqliteOfAccounts accs).accounts.filter (sqlAccountMatch u q),
          r'.zone.length ≤ r.zone.length) ↔ _
  constructor
  · rintro ⟨r, hr, hx, hmax⟩
    rw [hfe] at hr
    obtain ⟨b, hb, rfl⟩ := List.mem_map.mp hr
    have hbg : goodAccount b = true := hgood b (List.mem_filter.mp hb).1
    rw [rowToAccount_rowOf hbg] at hx
    subst hx
    refine ⟨hb, fun c hc => ?_⟩
    have := hmax (rowOf c) (by rw [hfe]; exact List.mem_map_of_mem _ hc)
    simpa [rowOf] using this
  · rintro ⟨hx, hmax⟩
    have hxg : goodAccount x = true := hgood x (List.mem_filter.mp hx).1
    refine ⟨rowOf x, ?_, ?_, ?_⟩
    · rw [hfe]
      exact List.mem_map_of_mem _ hx
    · rw [rowToAccount_rowOf hxg]
    · intro r' hr'
      rw [hfe] at hr'
      obtain ⟨c, hc, rfl⟩ := List.mem_map.mp hr'
      simpa [rowOf] using hmax c hc

theorem sqlite_rel_nf_iff {accs : List Account} {u q : Str}
    (hgood : ∀ a ∈ accs, goodAccount a = true) (hq : noUpper q = true) :
    sqliteGetAccountRel (sqliteOfAccounts accs) u q (.error .notFound) ↔
      claimMatches accs u q = [] := by
  show ((sqliteOfAccounts accs).accounts.filter (sqlAccountMatch u q) = []) ↔ _
  rw [sqlite_filter_eq accs u q hgood hq, List.map_eq_nil_iff]

/-! ## C1 -/

/-- C1 counterexample: with the single stored account
`(username "u", zone "b:c.")` — a zone containing the backends' `:` key
separator — the query `("u", "x.b:c.")` resolves to that account in the
key-value backend (its prefix scan parses the key `account:u:b:c.` as
zone `b:c.`) but to not-found in the transient backend (its scan skips
keys that do not split into exactly two parts), so the backends are not
identical over every stored set of accounts. -/
theorem c1_counterexample :
    memGetAccount (memOfAccounts [⟨str "u", str "pw", str "b:c.", []⟩]) (str "u")
        (str "x.b:c.") = .error .notFound ∧
    badgerGetAccount (badgerOfAccounts [⟨str "u", str "pw", str "b:c.", []⟩]) (str "u")
        (str "x.b:c.") = .ok ⟨str "u", str "pw", str "b:c.", []⟩ ∧
    (Except.error DBErr.notFound : Except DBErr Account) ≠
      .ok ⟨str "u", str "pw", str "b:c.", []⟩ := by
  exact ⟨by rfl, by rfl, by decide⟩

/-- C1 (amended): on stores whose accounts have nonempty colon-free
usernames, zones free of `:` and of the `LIKE` wildcards `%`/`_` and of
ASCII uppercase, allow-list entries surviving the comma round trip, and
distinct `(username, zone)` keys, and for colon-free queried usernames
and uppercase-free queried names, the three backends' `GetAccount` agree
exactly: the transient and key-value backends return the same result,
every outcome the relational query admits equals it, the result is the
unique longest-zone-match winner when one exists, and all report
not-found (`ErrRecordNotFound`, distinct from any I/O error) exactly
when no account of that username matches. -/
theorem c1_get_account (accs : List Account) (u q : Str)
    (hgood : ∀ a ∈ accs, goodAccount a = true)
    (hkeys : (accs.map (fun a => (a.username, a.zone))).Nodup)
    (hu : colonFree u = true) (hq : noUpper q = true) :
    memGetAccount (memOfAccounts accs) u q = badgerGetAccount (badgerOfAccounts accs) u q ∧
    (∀ out, sqliteGetAccountRel (sqliteOfAccounts accs) u q out →
      out = memGetAccount (memOfAccounts accs) u q) ∧
    sqliteGetAccountRel (sqliteOfAccounts accs) u q (memGetAccount (memOfAccounts accs) u q) ∧
    (∀ a, memGetAccount (memOfAccounts accs) u q = .ok a → IsWinner accs u q a) ∧
    (memGetAccount (memOfAccounts accs) u q = .error .notFound ↔
      claimMatches accs u q = []) := by
  rcases mem_spec accs u q hgood hkeys hu with ⟨w, hwin, hmem⟩ | ⟨hmt, hmem⟩
  · have hbad : badgerGetAccount (badgerOfAccounts accs) u q = .ok w := by
      rcases badger_spec accs u q hgood hkeys hu with ⟨w', hwin', hb⟩ | ⟨hmt', hb⟩
      · rw [hb, winner_unique hkeys hwin' hwin]
      · have hwmem := hwin.1
        rw [hmt'] at hwmem
        exact absurd hwmem (List.not_mem_nil w)
    refine ⟨by rw [hmem, hbad], ?_, ?_, ?_, ?_⟩
    · intro out hrel
      cases out with
      | ok x =>
        have hx := (sqlite_rel_ok_iff hgood hq).mp hrel
        rw [hmem, winner_unique hkeys hx hwin]
      | error e =>
        cases e with
        | notFound =>
          have hnil := (sqlite_rel_nf_iff hgood hq).mp hrel
          have hwmem := hwin.1
          rw [hnil] at hwmem
          exact absurd hwmem (List.not_mem_nil w)
        | readOnly => exact hrel.elim
        | valueNotFound => exact hrel.elim
        | ioFault => exact hrel.elim
    · rw [hmem]
      exact (sqlite_rel_ok_iff hgood hq).mpr hwin
    · intro a ha
      rw [hmem] at ha
      injection ha with ha
      exact ha ▸ hwin
    · constructor
      · intro h
        rw [hmem] at h
        exact absurd h (by simp)
      · intro h
        have hwmem := hwin.1
        rw [h] at hwmem
        exact absurd hwmem (List.not_mem_nil w)
  · have hbad : badgerGetAccount (badgerOfAccounts accs) u q = .error .notFound := by
      rcases badger_spec accs u q hgood hkeys hu with ⟨w', hwin', -⟩ | ⟨-, hb⟩
      · have hwmem := hwin'.1
        rw [hmt] at hwmem
        exact absurd hwmem (List.not_mem_nil w')
      · exact hb
    refine ⟨by rw [hmem, hbad], ?_, ?_, ?_, by rw [hmem]; simp [hmt]⟩
    · intro out hrel
      cases out with
      | ok x =>
        have hx := (sqlite_rel_ok_iff hgood hq).mp hrel
        have hxmem := hx.1
        rw [hmt] at hxmem
        exact absurd hxmem (List.not_mem_nil x)
      | error e =>
        cases e with
        | notFound => rw [hmem]
        | readOnly => exact hrel.elim
        | valueNotFound => exact hrel.elim
        | ioFault => exact hrel.elim
    · rw [hmem]
      exact (sqlite_rel_nf_iff hgood hq).mpr hmt
    · intro a ha
      rw [hmem] at ha
      exact absurd ha (by simp)

theorem c1_witness :
    (∀ a ∈ [(⟨str "alice", str "d1", str "example.org.", []⟩ : Account),
        ⟨str "alice", str "d2", str "sub.example.org.", []⟩], goodAccount a = true) ∧
    memGetAccount (memOfAccounts [⟨str "alice", str "d1", str "example.org.", []⟩,
        ⟨str "alice", str "d2", str "sub.example.org.", []⟩]) (str "alice")
        (str "x.sub.example.org.") =
      badgerGetAccount (badgerOfAccounts [⟨str "alice", str "d1", str "example.org.", []⟩,
        ⟨str "alice", str "d2", str "sub.example.org.", []⟩]) (str "alice")
        (str "x.sub.example.org.") :=
  ⟨by decide,
    (c1_get_account [⟨str "alice", str "d1", str "example.org.", []⟩,
        ⟨str "alice", str "d2", str "sub.example.org.", []⟩] (str "alice")
        (str "x.sub.example.org.") (by decide) (by decide) (by decide) (by decide)).1⟩

/-! ## C4 -/

/-- C4 counterexample: SQLite's `LIKE` folds ASCII case, so with the
single stored account `(username "u", zone "a.")` the relational query
for `("u", "x.A.")` may return that account (`'x.A.' LIKE '%.a.'`
matches) while the transient backend's linear scan, whose
`strings.HasSuffix` test is case-sensitive, returns not-found — the two
lookups do not agree on every account table. -/
theorem c4_counterexample :
    sqliteGetAccountRel (sqliteOfAccounts [⟨str "u", str "p", str "a.", []⟩]) (str "u")
        (str "x.A.") (.ok ⟨str "u", str "p", str "a.", []⟩) ∧
    memGetAccount (memOfAccounts [⟨str "u", str "p", str "a.", []⟩]) (str "u") (str "x.A.") =
      .error .notFound := by
  constructor
  · exact ⟨rowOf ⟨str "u", str "p", str "a.", []⟩, by decide, by decide, by decide⟩
  · rfl

/-- C4 (amended): under the character restrictions of the amended C1
(no `:` in usernames and zones, no `%`/`_`/ASCII-uppercase in zones or
the queried name, round-trippable allow-list entries, distinct keys),
the relational backend's single-query longest-match lookup always
admits an outcome, and every outcome it admits is exactly the transient
backend's linear-scan result. -/
theorem c4_sql_linear_equiv (accs : List Account) (u q : Str)
    (hgood : ∀ a ∈ accs, goodAccount a = true)
    (hkeys : (accs.map (fun a => (a.username, a.zone))).Nodup)
    (hu : colonFree u = true) (hq : noUpper q = true) :
    (∃ out, sqliteGetAccountRel (sqliteOfAccounts accs) u q out) ∧
    (∀ out, sqliteGetAccountRel (sqliteOfAccounts accs) u q out →
      out = memGetAccount (memOfAccounts accs) u q) := by
  rcases mem_spec accs u q hgood hkeys hu with ⟨w, hwin, hmem⟩ | ⟨hmt, hmem⟩
  · refine ⟨⟨.ok w, (sqlite_rel_ok_iff hgood hq).mpr hwin⟩, ?_⟩
    intro out hrel
    cases out with
    | ok x =>
      have hx := (sqlite_rel_ok_iff hgood hq).mp hrel
      rw [hmem, winner_unique hkeys hx hwin]
    | error e =>
      cases e with
      | notFound =>
        have hnil := (sqlite_rel_nf_iff hgood hq).mp hrel
        have hwmem := hwin.1
        rw [hnil] at hwmem
        exact absurd hwmem (List.not_mem_nil w)
      | readOnly => exact hrel.elim
      | valueNotFound => exact hrel.elim
      | ioFault => exact hrel.elim
  · refine ⟨⟨.error .notFound, (sqlite_rel_nf_iff hgood hq).mpr hmt⟩, ?_⟩
    intro out hrel
    cases out with
    | ok x =>
      have hx := (sqlite_rel_ok_iff hgood hq).mp hrel
      have hxmem := hx.1
      rw [hmt] at hxmem
      exact absurd hxmem (List.not_mem_nil x)
    | error e =>
      cases e with
      | notFound => rw [hmem]
      | readOnly => exact hrel.elim
      | valueNotFound => exact hrel.elim
      | ioFault => exact hrel.elim

theorem c4_witness :
    noUpper (str "x.sub.example.org.") = true ∧
    (∃ out, sqliteGetAccountRel
      (sqliteOfAccounts [⟨str "alice", str "d1", str "sub.example.org.", []⟩]) (str "alice")
      (str "x.sub.example.org.") out) :=
  ⟨by decide,
    (c4_sql_linear_equiv [⟨str "alice", str "d1", str "sub.example.org.", []⟩] (str "alice")
      (str "x.sub.example.org.") (by decide) (by decide) (by decide) (by decide)).1⟩

/-! ## C3 -/

/-- C3: on a relational handle opened read-only, `PresentRecord`,
`CleanupRecord` and `RegisterAccount` all return `ErrReadOnlyDatabase`
and leave the stored records and accounts (hence anything observable
after reopening read-write) unchanged. -/
theorem c3_readonly_sqlite (db : SQLiteDB) (f v : Str) (a : Account) (h : Str)
    (hro : db.readOnly = true) :
    sqlitePresentRecord db f v = (.error .readOnly, db) ∧
    sqliteCleanupRecord db f v = (.error .readOnly, db) ∧
    sqliteRegisterAccount db a h = (.error .readOnly, db) := by
  refine ⟨?_, ?_, ?_⟩ <;>
    simp [sqlitePresentRecord, sqliteCleanupRecord, sqliteRegisterAccount, hro]

theorem c3_witness :
    (⟨[⟨str "f.", str "v0"⟩], [], true⟩ : SQLiteDB).readOnly = true ∧
    sqlitePresentRecord ⟨[⟨str "f.", str "v0"⟩], [], true⟩ (str "f.") (str "v") =
      (.error .readOnly, ⟨[⟨str "f.", str "v0"⟩], [], true⟩) :=
  ⟨rfl,
    (c3_readonly_sqlite ⟨[⟨str "f.", str "v0"⟩], [], true⟩ (str "f.") (str "v")
      ⟨str "u", str "p", str "z.", []⟩ (str "h") rfl).1⟩

/-! ## C2 -/

/-- C2 counterexample: an A query for an owned challenge name with no
stored records and fallthrough denied is answered NXDOMAIN by the code,
not with the authoritative empty-answer success the claim assigns to
every non-TXT/ANY query on an owned challenge name (the code performs
the record lookup before the type check). -/
theorem c2_counterexample :
    serveDNS [str "example.org."] (fun _ => false) (fun _ => .error .notFound)
      (str "_acme-challenge.example.org.") (str "A") = .nxdomain ∧
    DNSOutcome.nxdomain ≠ DNSOutcome.respond true [] := by
  exact ⟨by rfl, by decide⟩

/-- C2 (amended): the resolution state machine with the lookup ordered
before the type check — queries outside the configured zones or without
the `_acme-challenge.` label are forwarded unconditionally; for an owned
challenge name the store is consulted first: not-found leads to forward
(when fallthrough permits) or NXDOMAIN, any other storage failure to
SERVFAIL with the error propagated, and only when records exist does the
type check run — non-TXT/ANY queries then get an authoritative
empty-answer success and TXT/ANY queries one authoritative TXT record
per stored value with the fixed TTL 60. -/
theorem c2_state_machine (zones : List Str) (fall : Str → Bool)
    (get : Str → Except DBErr (List Str)) (q t : Str) :
    (zonesMatches zones q = none → serveDNS zones fall get q t = .forward) ∧
    (hasChallengeLabel q = false → serveDNS zones fall get q t = .forward) ∧
    (zonesMatches zones q ≠ none → hasChallengeLabel q = true →
      (get q = .error .notFound → fall q = true → serveDNS zones fall get q t = .forward) ∧
      (get q = .error .notFound → fall q = false → serveDNS zones fall get q t = .nxdomain) ∧
      (∀ e, get q = .error e → e ≠ .notFound → serveDNS zones fall get q t = .servfail e) ∧
      (∀ rs, get q = .ok rs → t ≠ str "TXT" → t ≠ str "ANY" →
        serveDNS zones fall get q t = .respond true []) ∧
      (∀ rs, get q = .ok rs → (t = str "TXT" ∨ t = str "ANY") →
        serveDNS zones fall get q t =
          .respond true (rs.map (fun v => ⟨q, defaultTTL, v⟩)))) := by
  refine ⟨fun hz => ?_, fun hc => ?_, fun hz hc => ?_⟩
  · simp [serveDNS, hz]
  · cases hzm : zonesMatches zones q with
    | none => simp [serveDNS, hzm]
    | some z => simp [serveDNS, hzm, hc]
  · cases hzm : zonesMatches zones q with
    | none => exact absurd hzm hz
    | some z =>
      refine ⟨fun hg hf => ?_, fun hg hf => ?_, fun e hg he => ?_,
        fun rs hg h1 h2 => ?_, fun rs hg ht => ?_⟩
      · simp [serveDNS, hzm, hc, hg, hf]
      · simp [serveDNS, hzm, hc, hg, hf]
      · simp [serveDNS, hzm, hc, hg, he]
      · simp [serveDNS, hzm, hc, hg, h1, h2]
      · rcases ht with ht | ht <;> simp [serveDNS, hzm, hc, hg, ht]

theorem c2_witness :
    zonesMatches [str "example.org."] (str "_acme-challenge.example.org.") ≠ none ∧
    hasChallengeLabel (str "_acme-challenge.example.org.") = true ∧
    serveDNS [str "example.org."] (fun _ => false) (fun _ => .ok [str "tok"])
      (str "_acme-challenge.example.org.") (str "TXT") =
      .respond true [⟨str "_acme-challenge.example.org.", defaultTTL, str "tok"⟩] :=
  ⟨by decide, by decide,
    ((c2_state_machine [str "example.org."] (fun _ => false) (fun _ => .ok [str "tok"])
          (str "_acme-challenge.example.org.") (str "TXT")).2.2 (by decide)
        (by decide)).2.2.2.2 [str "tok"] rfl (Or.inl rfl)⟩

/-! ## C7 -/

/-- C7 counterexample: after presenting and then cleaning the one value
of a name, the transient backend reports not-found for the name — it has
no records at all — yet a further cleanup of a different value errors
with "value not found" instead of succeeding, because the emptied slice
is still in the map. -/
theorem c7_counterexample :
    memGetRecords
        ((memCleanupRecord
            ((memPresentRecord emptyMemDB (str "f.example.org.") (str "v1")).2)
            (str "f.example.org.") (str "v1")).2)
        (str "f.example.org.") = .error .notFound ∧
    (memCleanupRecord
        ((memCleanupRecord
            ((memPresentRecord emptyMemDB (str "f.example.org.") (str "v1")).2)
            (str "f.example.org.") (str "v1")).2)
        (str "f.example.org.") (str "v2")).1 = .error .valueNotFound := by
  exact ⟨by rfl, by rfl⟩

/-- C7 (amended): `CleanupRecord` never errors when the fqdn was never
presented (no map entry); when the transient backend holds an entry for
the fqdn — even one whose value set was emptied by earlier cleanups —
and the value is absent, it signals the distinct "value not found"
error; the relational backend (on a read-write handle) and the key-value
backend use an unconditional delete and never error. -/
theorem c7_cleanup (mdb : MemDB) (sdb : SQLiteDB) (bdb : BadgerDB) (f v : Str)
    (hro : sdb.readOnly = false) :
    (List.lookup f mdb.records = none → memCleanupRecord mdb f v = (.ok (), mdb)) ∧
    (∀ l, List.lookup f mdb.records = some l → v ∉ l →
      memCleanupRecord mdb f v = (.error .valueNotFound, mdb)) ∧
    (sqliteCleanupRecord sdb f v).1 = .ok () ∧
    (badgerCleanupRecord bdb f v).1 = .ok () := by
  refine ⟨fun hl => ?_, fun l hl hv => ?_, ?_, ?_⟩
  · simp [memCleanupRecord, hl]
  · simp [memCleanupRecord, hl, hv]
  · simp [sqliteCleanupRecord, hro]
  · simp [badgerCleanupRecord]

theorem c7_witness :
    (⟨[], [], false⟩ : SQLiteDB).readOnly = false ∧
    List.lookup (str "f.") (emptyMemDB).records = none ∧
    memCleanupRecord emptyMemDB (str "f.") (str "v") = (.ok (), emptyMemDB) :=
  ⟨rfl, rfl,
    (c7_cleanup emptyMemDB ⟨[], [], false⟩ ⟨[], []⟩ (str "f.") (str "v") rfl).1 rfl⟩

/-! ## C10 -/

/-- C10: the `/register` route is wired without the Auth middleware
(see `registerEndpoint`) and `handleRegister` never reads the peer
address or the global allowed-IP configuration: two register requests
with the same body against configurations sharing the same zone list
produce the same response and the same store, whatever the requester
addresses and the global allow-lists are. -/
theorem c10_register_ip_independent {δ : Type} (np : NetPrims) (hashF : Str → Str)
    (cfg1 cfg2 : ACMEConfig) (register : Account → Str → δ → Except DBErr Unit × δ)
    (req1 req2 : RegisterHTTPReq) (db : δ)
    (hzones : cfg1.zones = cfg2.zones) (hbody : req1.body = req2.body) :
    registerEndpoint np hashF cfg1 register req1 db =
      registerEndpoint np hashF cfg2 register req2 db := by
  simp only [registerEndpoint, handleRegister, hzones, hbody]

theorem c10_witness :
    ((⟨[str "example.org."], ⟨[str "10.0.0.0/8"], true⟩, true⟩ : ACMEConfig).zones =
        (⟨[str "example.org."], ⟨[], false⟩, true⟩ : ACMEConfig).zones) ∧
    ((⟨str "1.2.3.4:50", .parsed ⟨str "alice", str "secret", str "example.org", none⟩⟩ :
        RegisterHTTPReq).body =
      (⟨str "8.8.8.8:99", .parsed ⟨str "alice", str "secret", str "example.org", none⟩⟩ :
        RegisterHTTPReq).body) ∧
    registerEndpoint ⟨fun _ _ => false, fun _ => false, fun _ => false⟩ id
        ⟨[str "example.org."], ⟨[str "10.0.0.0/8"], true⟩, true⟩
        (fun a h db => memRegisterAccount db a h)
        ⟨str "1.2.3.4:50", .parsed ⟨str "alice", str "secret", str "example.org", none⟩⟩
        emptyMemDB =
      registerEndpoint ⟨fun _ _ => false, fun _ => false, fun _ => false⟩ id
        ⟨[str "example.org."], ⟨[], false⟩, true⟩
        (fun a h db => memRegisterAccount db a h)
        ⟨str "8.8.8.8:99", .parsed ⟨str "alice", str "secret", str "example.org", none⟩⟩
        emptyMemDB :=
  ⟨rfl, rfl,
    c10_register_ip_independent ⟨fun _ _ => false, fun _ => false, fun _ => false⟩ id
      ⟨[str "example.org."], ⟨[str "10.0.0.0/8"], true⟩, true⟩
      ⟨[str "example.org."], ⟨[], false⟩, true⟩
      (fun a h db => memRegisterAccount db a h)
      ⟨str "1.2.3.4:50", .parsed ⟨str "alice", str "secret", str "example.org", none⟩⟩
      ⟨str "8.8.8.8:99", .parsed ⟨str "alice", str "secret", str "example.org", none⟩⟩
      emptyMemDB rfl rfl⟩

/-! ## C5 -/

/-- C5 counterexample: in the key-value backend a colon inside a stored
fqdn bleeds into neighbouring names — with only `("a:b", "c")` stored,
the value set of `"a"` was never created, yet `GetRecords "a"` returns
`["b:c"]` instead of the not-found condition, because the key
`record:a:b:c` also parses as fqdn `a` with value `b:c`. -/
theorem c5_counterexample :
    badgerGetRecords (badgerOfRecords [(str "a:b", str "c")]) (str "a") = .ok [str "b:c"] ∧
    ([(str "a:b", str "c")] : List (Str × Str)).filter (fun p => decide (p.1 = str "a")) = [] := by
  exact ⟨by rfl, by rfl⟩

/-- C5 (amended): `GetRecords fqdn` returns `ErrRecordNotFound` exactly
when the value set of the fqdn is empty or was never created — in the
transient backend (map entry absent or emptied), the relational backend
(no row), and, for fqdns free of the `:` key separator, the key-value
backend (no stored pair). -/
theorem c5_getrecords_notfound (mdb : MemDB) (sdb : SQLiteDB) (pairs : List (Str × Str))
    (f : Str) (hf : colonFree f = true) (hp : ∀ p ∈ pairs, colonFree p.1 = true) :
    (memGetRecords mdb f = .error .notFound ↔ (List.lookup f mdb.records).getD [] = []) ∧
    (sqliteGetRecords sdb f = .error .notFound ↔
      sdb.records.filter (fun r => decide (r.fqdn = f)) = []) ∧
    (badgerGetRecords (badgerOfRecords pairs) f = .error .notFound ↔
      pairs.filter (fun p => decide (p.1 = f)) = []) := by
  refine ⟨?_, ?_, ?_⟩
  · cases hl : List.lookup f mdb.records with
    | none => simp [memGetRecords, hl]
    | some l =>
      cases l with
      | nil => simp [memGetRecords, hl]
      | cons x xs => simp [memGetRecords, hl]
  · cases hfl : sdb.records.filter (fun r => decide (r.fqdn = f)) with
    | nil => simp [sqliteGetRecords, hfl]
    | cons x xs => simp [sqliteGetRecords, hfl]
  · have key_eq : ∀ p ∈ pairs,
        List.isPrefixOf (makeRecordKey f []) (makeRecordKey p.1 p.2) = decide (p.1 = f) := by
      intro p hmem
      apply beq_of_iff
      rw [List.isPrefixOf_iff_prefix, decide_eq_true_eq]
      have h1 : makeRecordKey f [] = recordKeySpace ++ (f ++ [':']) := by
        simp [makeRecordKey]
      have h2 : makeRecordKey p.1 p.2 = recordKeySpace ++ (p.1 ++ ':' :: p.2) := by
        simp [makeRecordKey]
      rw [h1, h2, List.prefix_append_right_inj]
      exact (colon_pre_iff (colonFree_iff.mp hf) (colonFree_iff.mp (hp p hmem))).trans eq_comm
    have hrw : (badgerOfRecords pairs).recordKeys.filter (List.isPrefixOf (makeRecordKey f [])) =
        (pairs.filter (fun p => decide (p.1 = f))).map (fun p => makeRecordKey p.1 p.2) := by
      show ((pairs.map (fun p => makeRecordKey p.1 p.2)).filter
          (List.isPrefixOf (makeRecordKey f []))) = _
      rw [List.filter_map]
      congr 1
      exact List.filter_congr (fun p hmem => key_eq p hmem)
    cases hfl : pairs.filter (fun p => decide (p.1 = f)) with
    | nil => simp [badgerGetRecords, hrw, hfl]
    | cons x xs => simp [badgerGetRecords, hrw, hfl]

theorem c5_witness :
    colonFree (str "_acme-challenge.example.org.") = true ∧
    (badgerGetRecords (badgerOfRecords [(str "_acme-challenge.example.org.", str "tok")])
        (str "_acme-challenge.example.org.") = .error .notFound ↔
      ([(str "_acme-challenge.example.org.", str "tok")] : List (Str × Str)).filter
          (fun p => decide (p.1 = str "_acme-challenge.example.org.")) = []) :=
  ⟨by decide,
    (c5_getrecords_notfound emptyMemDB ⟨[], [], false⟩
        [(str "_acme-challenge.example.org.", str "tok")]
        (str "_acme-challenge.example.org.") (by decide) (by decide)).2.2⟩

/-! ## C6 -/

theorem lookup_mapSet_self {α : Type} (k : Str) (v : α) (l : List (Str × α)) :
    List.lookup k (mapSet k v l) = some v := by
  induction l with
  | nil => simp [mapSet, List.lookup]
  | cons p rest ih =>
    obtain ⟨k', v'⟩ := p
    by_cases hk : k' = k
    · subst hk
      simp [mapSet, List.lookup]
    · simp only [mapSet, if_neg hk, List.lookup,
        beq_eq_false_iff_ne.mpr (fun he => hk he.symm)]
      exact ih

theorem lookup_mapSet_ne {α : Type} {k k' : Str} (v : α) (l : List (Str × α)) (h : k' ≠ k) :
    List.lookup k' (mapSet k v l) = List.lookup k' l := by
  induction l with
  | nil => simp [mapSet, List.lookup, beq_eq_false_iff_ne.mpr h]
  | cons p rest ih =>
    obtain ⟨k0, v0⟩ := p
    by_cases hk : k0 = k
    · subst hk
      simp [mapSet, List.lookup, beq_eq_false_iff_ne.mpr h]
    · simp only [mapSet, if_neg hk, List.lookup]
      cases hbe : (k' == k0) with
      | true => rfl
      | false => exact ih

theorem makeRecordKey_split (f v : Str) : makeRecordKey f v = makeRecordKey f [] ++ v := by
  simp [makeRecordKey]

theorem count_eq_one_of_nodup_mem {α : Type} [BEq α] [LawfulBEq α] {l : List α} {a : α}
    (hnd : l.Nodup) (ha : a ∈ l) : l.count a = 1 := by
  induction l with
  | nil => simp at ha
  | cons x xs ih =>
    rw [List.nodup_cons] at hnd
    by_cases hax : a = x
    · subst hax
      rw [List.count_cons_self, List.count_eq_zero.mpr hnd.1]
    · rw [List.count_cons_of_ne hax]
      exact ih hnd.2 (by rcases List.mem_cons.mp ha with h | h
                         · exact absurd h hax
                         · exact h)

/-- Counting one value in a `GetRecords` prefix scan equals counting its
full key in the store. -/
theorem badger_count_key (keys : List Str) (f v : Str) :
    ((keys.filter (List.isPrefixOf (makeRecordKey f []))).map
        (fun k => k.drop (makeRecordKey f []).length)).count v =
      keys.count (makeRecordKey f v) := by
  rw [List.count_eq_countP, List.countP_map, List.count_eq_countP, List.countP_filter]
  refine List.countP_congr (fun k _ => ?_)
  simp only [Function.comp_apply, Bool.and_eq_true, beq_iff_eq]
  constructor
  · rintro ⟨hdrop, hpre⟩
    obtain ⟨t, ht⟩ := List.isPrefixOf_iff_prefix.mp hpre
    rw [makeRecordKey_split f v]
    rw [← ht, List.drop_left] at hdrop
    rw [← ht, hdrop]
  · intro hk
    subst hk
    refine ⟨?_, ?_⟩
    · rw [makeRecordKey_split f v, List.drop_left]
    · exact List.isPrefixOf_iff_prefix.mpr ⟨v, (makeRecordKey_split f v).symm⟩

/-- C6 counterexample: on a relational handle opened read-only,
`PresentRecord` errors with the read-only condition, so it is not true
of every backend state that repeated `PresentRecord` never errors. -/
theorem c6_counterexample :
    (sqlitePresentRecord ⟨[], [], true⟩ (str "f.") (str "v")).1 = .error .readOnly ∧
    (Except.error DBErr.readOnly : Except DBErr Unit) ≠ .ok () := by
  exact ⟨rfl, by decide⟩

/-- C6 (amended): on backend states with duplicate-free record sets (an
invariant of every reachable state) and, for the relational backend, a
handle not opened read-only, `PresentRecord` never errors — in
particular not when the value is already present — a subsequent
`GetRecords` contains the value exactly once, and repeating
`PresentRecord` leaves the state fixed, so any number of repetitions
gives the same store. -/
theorem c6_present_idempotent (mdb : MemDB) (sdb : SQLiteDB) (bdb : BadgerDB) (f v : Str)
    (hm : ∀ p ∈ mdb.records, (p.2 : List Str).Nodup)
    (hs : sdb.readOnly = false) (hb : bdb.recordKeys.Nodup) :
    ((memPresentRecord mdb f v).1 = .ok () ∧
      (∃ l, memGetRecords (memPresentRecord mdb f v).2 f = .ok l ∧ l.count v = 1) ∧
      memPresentRecord (memPresentRecord mdb f v).2 f v =
        (.ok (), (memPresentRecord mdb f v).2)) ∧
    ((sqlitePresentRecord sdb f v).1 = .ok () ∧
      (∃ l, sqliteGetRecords (sqlitePresentRecord sdb f v).2 f = .ok l ∧ l.count v = 1) ∧
      sqlitePresentRecord (sqlitePresentRecord sdb f v).2 f v =
        (.ok (), (sqlitePresentRecord sdb f v).2)) ∧
    ((badgerPresentRecord bdb f v).1 = .ok () ∧
      (∃ l, badgerGetRecords (badgerPresentRecord bdb f v).2 f = .ok l ∧ l.count v = 1) ∧
      badgerPresentRecord (badgerPresentRecord bdb f v).2 f v =
        (.ok (), (badgerPresentRecord bdb f v).2)) := by
  refine ⟨?_, ?_, ?_⟩
  · -- MemDB
    by_cases hv : v ∈ (List.lookup f mdb.records).getD []
    · have hpres : memPresentRecord mdb f v = (.ok (), mdb) := by
        simp [memPresentRecord, hv]
      cases hl : List.lookup f mdb.records with
      | none => rw [hl] at hv; simp at hv
      | some l0 =>
        rw [hl] at hv
        simp only [Option.getD_some] at hv
        have hnd : l0.Nodup := hm (f, l0) (lookup_mem hl)
        have hcount : l0.count v = 1 := count_eq_one_of_nodup_mem hnd hv
        refine ⟨by rw [hpres], ⟨l0, ?_, hcount⟩, by rw [hpres, hpres]⟩
        rw [hpres]
        have hlen : l0.length ≠ 0 := by
          intro h0
          rw [List.length_eq_zero.mp h0] at hv
          simp at hv
        simp [memGetRecords, hl, hlen]
    · have hpres : memPresentRecord mdb f v =
          (.ok (), { mdb with
            records := mapSet f ((List.lookup f mdb.records).getD [] ++ [v]) mdb.records }) := by
        simp [memPresentRecord, hv]
      have hcount : ((List.lookup f mdb.records).getD [] ++ [v]).count v = 1 := by
        rw [List.count_append, List.count_eq_zero.mpr hv]
        simp
      have hlook : List.lookup f
          (mapSet f ((List.lookup f mdb.records).getD [] ++ [v]) mdb.records) =
          some ((List.lookup f mdb.records).getD [] ++ [v]) := lookup_mapSet_self ..
      refine ⟨by rw [hpres], ⟨(List.lookup f mdb.records).getD [] ++ [v], ?_, hcount⟩, ?_⟩
      · rw [hpres]
        simp [memGetRecords, hlook]
      · rw [hpres]
        have hv' : v ∈ (List.lookup f
            (mapSet f ((List.lookup f mdb.records).getD [] ++ [v]) mdb.records)).getD [] := by
          rw [hlook]
          simp
        simp [memPresentRecord, hv']
  · -- SQLiteDB
    have hpres : sqlitePresentRecord sdb f v =
        (.ok (), { sdb with
          records := (sdb.records.filter (fun r => decide (r ≠ ⟨f, v⟩))) ++ [⟨f, v⟩] }) := by
      simp [sqlitePresentRecord, hs]
    set F := sdb.records.filter (fun r => decide (r ≠ ⟨f, v⟩)) with hF
    have hnotin : (⟨f, v⟩ : RecordRow) ∉ F := by
      intro hmem
      have := (List.mem_filter.mp hmem).2
      simp at this
    have hzero : ((F.filter (fun r => decide (r.fqdn = f))).map
        (fun r => r.value)).count v = 0 := by
      rw [List.count_eq_zero]
      intro hmem
      obtain ⟨r, hr, hrv⟩ := List.mem_map.mp hmem
      have hrf : r.fqdn = f := by simpa using (List.mem_filter.mp hr).2
      have hrF := (List.mem_filter.mp hr).1
      apply hnotin
      have hreq : r = (⟨f, v⟩ : RecordRow) := by
        obtain ⟨rf, rv⟩ := r
        simp only [RecordRow.mk.injEq]
        exact ⟨hrf, hrv⟩
      exact hreq ▸ hrF
    have hvals : ((F ++ [(⟨f, v⟩ : RecordRow)]).filter (fun r => decide (r.fqdn = f))).map
        (fun r => r.value) =
        (F.filter (fun r => decide (r.fqdn = f))).map (fun r => r.value) ++ [v] := by
      rw [List.filter_append]
      simp
    have hcount : (((F ++ [(⟨f, v⟩ : RecordRow)]).filter (fun r => decide (r.fqdn = f))).map
        (fun r => r.value)).reverse.count v = 1 := by
      rw [List.count_reverse, hvals, List.count_append, hzero]
      simp
    refine ⟨by rw [hpres], ⟨_, ?_, hcount⟩, ?_⟩
    · rw [hpres]
      have hlen : (((F ++ [(⟨f, v⟩ : RecordRow)]).filter
          (fun r => decide (r.fqdn = f))).map (fun r => r.value)).reverse.length ≠ 0 := by
        intro h0
        have h1 := hcount
        rw [List.length_eq_zero.mp h0] at h1
        simp at h1
      simp only [sqliteGetRecords]
      rw [if_neg hlen]
    · rw [hpres]
      have hfix : (F ++ [(⟨f, v⟩ : RecordRow)]).filter (fun r => decide (r ≠ ⟨f, v⟩)) = F := by
        rw [List.filter_append, hF, List.filter_filter]
        simp [Bool.and_self]
      simp only [sqlitePresentRecord, hs]
      simp only [Bool.false_eq_true, if_false]
      rw [hfix]
  · -- BadgerDB
    by_cases hk : makeRecordKey f v ∈ bdb.recordKeys
    · have hpres : badgerPresentRecord bdb f v = (.ok (), bdb) := by
        simp [badgerPresentRecord, hk]
      have hcount : ((bdb.recordKeys.filter (List.isPrefixOf (makeRecordKey f []))).map
          (fun k => k.drop (makeRecordKey f []).length)).count v = 1 := by
        rw [badger_count_key]
        exact count_eq_one_of_nodup_mem hb hk
      refine ⟨by rw [hpres], ⟨_, ?_, hcount⟩, by rw [hpres, hpres]⟩
      rw [hpres]
      have hlen : ((bdb.recordKeys.filter (List.isPrefixOf (makeRecordKey f []))).map
          (fun k => k.drop (makeRecordKey f []).length)).length ≠ 0 := by
        intro h0
        have h1 := hcount
        rw [List.length_eq_zero.mp h0] at h1
        simp at h1
      simp only [badgerGetRecords]
      rw [if_neg hlen]
    · have hpres : badgerPresentRecord bdb f v =
          (.ok (), { bdb with recordKeys := bdb.recordKeys ++ [makeRecordKey f v] }) := by
        simp [badgerPresentRecord, hk]
      have hcount : (((bdb.recordKeys ++ [makeRecordKey f v]).filter
          (List.isPrefixOf (makeRecordKey f []))).map
          (fun k => k.drop (makeRecordKey f []).length)).count v = 1 := by
        rw [badger_count_key, List.count_append, List.count_eq_zero.mpr hk]
        simp
      refine ⟨by rw [hpres], ⟨_, ?_, hcount⟩, ?_⟩
      · rw [hpres]
        have hlen : (((bdb.recordKeys ++ [makeRecordKey f v]).filter
            (List.isPrefixOf (makeRecordKey f []))).map
            (fun k => k.drop (makeRecordKey f []).length)).length ≠ 0 := by
          intro h0
          have h1 := hcount
          rw [List.length_eq_zero.mp h0] at h1
          simp at h1
        simp only [badgerGetRecords]
        rw [if_neg hlen]
      · rw [hpres]
        have hk' : makeRecordKey f v ∈ bdb.recordKeys ++ [makeRecordKey f v] := by simp
        simp [badgerPresentRecord, hk']

theorem c6_witness :
    (∀ p ∈ (emptyMemDB).records, (p.2 : List Str).Nodup) ∧
    (memPresentRecord emptyMemDB (str "f.") (str "tok")).1 = .ok () :=
  ⟨by decide,
    (c6_present_idempotent emptyMemDB ⟨[], [], false⟩ ⟨[], []⟩ (str "f.") (str "tok")
      (by decide) rfl (by decide)).1.1⟩

/-! ## C8 -/

/-- C8: a `/present` request that passes the global IP gate and all body
validation but fails authentication is answered 401 with the store
untouched, and one that authenticates but comes from an IP outside the
account's own non-empty allow-list is answered 403 with the store
untouched — in both cases for every possible `PresentRecord`
implementation, so the wrapped handler demonstrably never runs. -/
theorem c8_auth_frame {δ : Type} (np : NetPrims) (verify : Str → Str → Bool)
    (cfg : ACMEConfig) (getAccount : Str → Str → Except DBErr Account)
    (present : Str → Str → δ → Except DBErr Unit × δ) (req : APIRequest) (db : δ)
    (f0 v : Str) (hbody : req.body = .parsed f0 v)
    (hip : ¬ (req.clientIP = [] ∨ ¬ cidrContains np cfg.authConfig.allowedIPs req.clientIP))
    (hzone : ¬ zonesMatches cfg.zones (canonicalName f0) = none)
    (htxt : isValidTXT v = true)
    (hauth : cfg.authConfig.requireAuth = true) :
    (∀ e, getAccountFromReq verify cfg.authConfig getAccount req (canonicalName f0) = .error e →
      presentEndpoint np verify cfg getAccount present req db =
        (jsonError (str "unauthorized") 401, db)) ∧
    (∀ account,
      getAccountFromReq verify cfg.authConfig getAccount req (canonicalName f0) = .ok account →
      account.allowedIPs.length > 0 →
      cidrContains np account.allowedIPs req.clientIP = false →
      presentEndpoint np verify cfg getAccount present req db =
        (jsonError (str "forbidden_ip") 403, db)) := by
  push_neg at hip
  constructor
  · intro e hacc
    simp [presentEndpoint, authMiddleware, hip.1, hip.2, hbody, hzone, htxt, hauth, hacc]
  · intro account hacc hlen hout
    simp [presentEndpoint, authMiddleware, hip.1, hip.2, hbody, hzone, htxt, hauth, hacc,
      hlen, hout]

theorem c8_witness :
    ((⟨str "10.0.0.7", .parsed (str "_acme-challenge.example.org.")
          (str "aaaaaaaaaaaaaaaaaaaaaaaaaaaaaaaaaaaaaaaaaaa"),
        some (str "alice", str "wrongpw"), [], []⟩ : APIRequest).body =
      .parsed (str "_acme-challenge.example.org.")
        (str "aaaaaaaaaaaaaaaaaaaaaaaaaaaaaaaaaaaaaaaaaaa")) ∧
    presentEndpoint ⟨fun _ _ => true, fun _ => true, fun _ => true⟩
        (fun _ _ => false) ⟨[str "example.org."], ⟨[], true⟩, false⟩
        (fun _ _ => .ok ⟨str "alice", str "digest", str "example.org.", []⟩)
        (fun f v db => memPresentRecord db f v)
        ⟨str "10.0.0.7", .parsed (str "_acme-challenge.example.org.")
            (str "aaaaaaaaaaaaaaaaaaaaaaaaaaaaaaaaaaaaaaaaaaa"),
          some (str "alice", str "wrongpw"), [], []⟩
        emptyMemDB =
      (jsonError (str "unauthorized") 401, emptyMemDB) :=
  ⟨rfl,
    (c8_auth_frame ⟨fun _ _ => true, fun _ => true, fun _ => true⟩ (fun _ _ => false)
        ⟨[str "example.org."], ⟨[], true⟩, false⟩
        (fun _ _ => .ok ⟨str "alice", str "digest", str "example.org.", []⟩)
        (fun f v db => memPresentRecord db f v)
        ⟨str "10.0.0.7", .parsed (str "_acme-challenge.example.org.")
            (str "aaaaaaaaaaaaaaaaaaaaaaaaaaaaaaaaaaaaaaaaaaa"),
          some (str "alice", str "wrongpw"), [], []⟩
        emptyMemDB _ _ rfl (by decide) (by decide) (by decide) rfl).1
      .invalidUsernameOrPassword (by rfl)⟩

/-! ## C9 -/

/-- C9: for otherwise-valid authenticated `/present` (or `/cleanup`)
requests, the response when the supplied username resolves to no stored
account is the very same 401 `unauthorized` JSON error as the response
when the account resolves but the supplied password fails verification
against the stored digest — the response never separates wrong username
from wrong password. -/
theorem c9_no_username_oracle {δ : Type} (np : NetPrims) (verify : Str → Str → Bool)
    (cfg : ACMEConfig) (getAccount : Str → Str → Except DBErr Account)
    (next : Option Account → Option ACMETxt → δ → APIResponse × δ)
    (req1 req2 : APIRequest) (db : δ) (f1 v1 f2 v2 : Str)
    (hb1 : req1.body = .parsed f1 v1) (hb2 : req2.body = .parsed f2 v2)
    (hip1 : ¬ (req1.clientIP = [] ∨ ¬ cidrContains np cfg.authConfig.allowedIPs req1.clientIP))
    (hip2 : ¬ (req2.clientIP = [] ∨ ¬ cidrContains np cfg.authConfig.allowedIPs req2.clientIP))
    (hz1 : ¬ zonesMatches cfg.zones (canonicalName f1) = none)
    (hz2 : ¬ zonesMatches cfg.zones (canonicalName f2) = none)
    (ht1 : isValidTXT v1 = true) (ht2 : isValidTXT v2 = true)
    (hauth : cfg.authConfig.requireAuth = true)
    (hc1 : (credsOf req1).1 ≠ [] ∧ (credsOf req1).2 ≠ [])
    (hc2 : (credsOf req2).1 ≠ [] ∧ (credsOf req2).2 ≠ [])
    (hacc1 : getAccount (credsOf req1).1 (canonicalName f1) = .error .notFound)
    (hacc2 : ∃ acc, getAccount (credsOf req2).1 (canonicalName f2) = .ok acc ∧
      verify acc.password (credsOf req2).2 = false) :
    authMiddleware np verify cfg.zones cfg.authConfig getAccount next req1 db =
      (jsonError (str "unauthorized") 401, db) ∧
    authMiddleware np verify cfg.zones cfg.authConfig getAccount next req2 db =
      (jsonError (str "unauthorized") 401, db) ∧
    (authMiddleware np verify cfg.zones cfg.authConfig getAccount next req1 db).1 =
      (authMiddleware np verify cfg.zones cfg.authConfig getAccount next req2 db).1 := by
  have h1 : getAccountFromReq verify cfg.authConfig getAccount req1 (canonicalName f1) =
      .error (.dbErr .notFound) := by
    simp [getAccountFromReq, hauth, hc1.1, hc1.2, hacc1]
  obtain ⟨acc, hga, hv⟩ := hacc2
  have h2 : getAccountFromReq verify cfg.authConfig getAccount req2 (canonicalName f2) =
      .error .invalidUsernameOrPassword := by
    simp [getAccountFromReq, hauth, hc2.1, hc2.2, hga, hv]
  push_neg at hip1 hip2
  have r1 : authMiddleware np verify cfg.zones cfg.authConfig getAccount next req1 db =
      (jsonError (str "unauthorized") 401, db) := by
    simp [authMiddleware, hip1.1, hip1.2, hb1, hz1, ht1, hauth, h1]
  have r2 : authMiddleware np verify cfg.zones cfg.authConfig getAccount next req2 db =
      (jsonError (str "unauthorized") 401, db) := by
    simp [authMiddleware, hip2.1, hip2.2, hb2, hz2, ht2, hauth, h2]
  exact ⟨r1, r2, by rw [r1, r2]⟩

theorem c9_witness :
    isValidTXT (str "aaaaaaaaaaaaaaaaaaaaaaaaaaaaaaaaaaaaaaaaaaa") = true ∧
    (authMiddleware ⟨fun _ _ => true, fun _ => true, fun _ => true⟩
        (fun d p => decide (d = p)) [str "example.org."] ⟨[], true⟩
        (fun u _ =>
          if u = str "alice" then
            .ok ⟨str "alice", str "digest", str "example.org.", []⟩
          else .error .notFound)
        (fun _ _ db => (⟨200, []⟩, db))
        ⟨str "9.9.9.9",
          .parsed (str "_acme-challenge.example.org.")
            (str "aaaaaaaaaaaaaaaaaaaaaaaaaaaaaaaaaaaaaaaaaaa"),
          some (str "bob", str "pw"), [], []⟩ emptyMemDB).1 =
      (authMiddleware ⟨fun _ _ => true, fun _ => true, fun _ => true⟩
        (fun d p => decide (d = p)) [str "example.org."] ⟨[], true⟩
        (fun u _ =>
          if u = str "alice" then
            .ok ⟨str "alice", str "digest", str "example.org.", []⟩
          else .error .notFound)
        (fun _ _ db => (⟨200, []⟩, db))
        ⟨str "9.9.9.9",
          .parsed (str "_acme-challenge.example.org.")
            (str "aaaaaaaaaaaaaaaaaaaaaaaaaaaaaaaaaaaaaaaaaaa"),
          some (str "alice", str "pw"), [], []⟩ emptyMemDB).1 :=
  ⟨by decide,
    (c9_no_username_oracle ⟨fun _ _ => true, fun _ => true, fun _ => true⟩
        (fun d p => decide (d = p)) ⟨[str "example.org."], ⟨[], true⟩, false⟩
        (fun u _ =>
          if u = str "alice" then
            .ok ⟨str "alice", str "digest", str "example.org.", []⟩
          else .error .notFound)
        (fun _ _ db => (⟨200, []⟩, db))
        ⟨str "9.9.9.9",
          .parsed (str "_acme-challenge.example.org.")
            (str "aaaaaaaaaaaaaaaaaaaaaaaaaaaaaaaaaaaaaaaaaaa"),
          some (str "bob", str "pw"), [], []⟩
        ⟨str "9.9.9.9",
          .parsed (str "_acme-challenge.example.org.")
            (str "aaaaaaaaaaaaaaaaaaaaaaaaaaaaaaaaaaaaaaaaaaa"),
          some (str "alice", str "pw"), [], []⟩
        emptyMemDB _ _ _ _ rfl rfl (by decide) (by decide) (by decide) (by decide)
        (by decide) (by decide) rfl ⟨by decide, by decide⟩ ⟨by decide, by decide⟩
        (by decide)
        ⟨⟨str "alice", str "digest", str "example.org.", []⟩, by decide, by decide⟩).2.2⟩

end Acme
